import Mathlib

/-!
# Verification of the ref-extractor citation pipeline

Shallow embedding of the citation extraction/consolidation pipeline of the
repository (files `src/js/errorHandler.js` and `src/js/outputFormatter.js`),
together with theorems settling the frozen claims about it.

Conventions used throughout the embedding:
* JavaScript objects with optional properties become structures with `Option`
  fields; `hasOwnProperty(f) ? o.f : null` collapses to a single `Option`.
* JavaScript arrays become `List`s; in-place mutation of an array cell becomes
  `List.set`.
* `while` loops become fuel-indexed recursions; the fuel chosen is proved
  sufficient by the accompanying theorems (the characterisation theorems below
  only hold because the loop in fact reaches its exit condition).
* External collaborators (the JSON parser/serialiser built into the language
  runtime and the Citation.js rendering capability) are taken as parameters of
  the functions that call them, so the theorems quantify over them.
-/

/-! ### Character-level string helpers

The JavaScript string operations used by the pipeline (`trim`, `startsWith`,
`slice`, `split('\n')`, `join`) are modelled over the character list of the
string, so that every definition evaluates by kernel reduction. -/

/-- `s.trim()`: remove leading and trailing whitespace. -/
def jsTrim (s : String) : String :=
  String.mk (((s.toList.dropWhile Char.isWhitespace).reverse.dropWhile Char.isWhitespace).reverse)

/-- `s.startsWith(pre)`. -/
def jsStartsWith (s pre : String) : Bool :=
  decide (s.toList.take pre.toList.length = pre.toList)

/-- `s.slice(n)` (drop the first `n` characters). -/
def jsDropChars (s : String) (n : Nat) : String :=
  String.mk (s.toList.drop n)

/-- `s.slice(0, n)` (keep the first `n` characters). -/
def jsTakeChars (s : String) (n : Nat) : String :=
  String.mk (s.toList.take n)

/-- `s.split('\n')` on the character list: cut at every newline. -/
def splitNlAux : List Char → List Char → List String
  | acc, [] => [String.mk acc.reverse]
  | acc, c :: rest =>
    if c = '\n' then String.mk acc.reverse :: splitNlAux [] rest
    else splitNlAux (c :: acc) rest

/-- `s.split('\n')`. -/
def splitNl (s : String) : List String :=
  splitNlAux [] s.toList

/-- `lines.join('\n')`. -/
def joinNl (lines : List String) : String :=
  match lines with
  | [] => ""
  | l :: ls => ls.foldl (fun acc x => acc ++ "\n" ++ x) l

/-- `parts.join(sep)`. -/
def joinWith (sep : String) (parts : List String) : String :=
  match parts with
  | [] => ""
  | p :: ps => ps.foldl (fun acc x => acc ++ sep ++ x) p

/-- A CSL bibliographic record (`itemData`).  The pipeline touches `title`,
`author` and `note` explicitly; all remaining fields of the record are carried
opaquely in `extra` so that frame conditions ("other fields unchanged") can be
stated.  `author` is `Option` because JavaScript distinguishes an absent
`author` property (falsy) from an empty author array (truthy). -/
structure Item where
  title : Option String := none
  author : Option (List (String × String)) := none
  note : Option String := none
  extra : List (String × String) := []
deriving DecidableEq, Repr

instance : Inhabited Item := ⟨{}⟩

/-- One parsed citation item as consumed by the deduplication engine:
the `uris` identifier list (absent property ↦ `[]`, as in
`cite.hasOwnProperty('uris') ? [...cite.uris] : []`) and the optional
bibliographic record (absent or null ↦ `none`).  The payload type `ι` is
`Item` for the value-level model and `Nat` (a store reference) for the
heap-level model used by the frame-effect claim. -/
structure Cite (ι : Type) where
  uris : List String
  itemData : Option ι
deriving DecidableEq, Repr

/-- One cell of the `deduplicationArray` built by `deduplicateCitations`
(src/js/errorHandler.js, lines 740-746). -/
structure DedupEntry (ι : Type) where
  item : Option ι
  uris : List String
  count : Nat
  index : Nat
  indices : Option (List Nat)
deriving DecidableEq, Repr

instance {ι : Type} : Inhabited (DedupEntry ι) :=
  ⟨{ item := none, uris := [], count := 0, index := 0, indices := none }⟩

/-- `deduplicationArray = citations.map((cite, index) => ({item, uris, count: 1, index, ...}))`
(src/js/errorHandler.js, lines 740-746). -/
def mkDedupArray {ι : Type} (cs : List (Cite ι)) : List (DedupEntry ι) :=
  cs.enum.map fun p =>
    { item := p.2.itemData, uris := p.2.uris, count := 1, index := p.1, indices := none }

/-- Total length of all `uris` lists in the array; used to bound the
`normalizeUris` inner loop. -/
def sumUrisLen {ι : Type} (arr : List (DedupEntry ι)) : Nat :=
  (arr.map (fun e => e.uris.length)).sum

/-- One `matchingItems.forEach` pass of `normalizeUris`
(src/js/errorHandler.js, lines 811-816): for each matching entry, the uris not
yet present in the current entry's list are appended. -/
def pushNewUris {ι : Type} (cur : List String) (ms : List (DedupEntry ι)) : List String :=
  ms.foldl (fun c m => c ++ m.uris.filter (fun u => !c.contains u)) cur

/-- The inner `for j` loop of `normalizeUris` (src/js/errorHandler.js,
lines 802-817) for the entry at position `i`, starting at uri position `j`.
The JavaScript loop re-reads `currentItem.uris.length` every iteration while
the list grows; here that shows up as the recursion continuing while
`j < uris.length` on the updated array.  `fuel` bounds the recursion; the
characterisation theorems below show the fuel chosen by `normalizeUris` is
large enough for the loop to reach its exit condition. -/
def normalizeEntryStep {ι : Type} : List (DedupEntry ι) → Nat → Nat → Nat → List (DedupEntry ι)
  | arr, _, _, 0 => arr
  | arr, i, j, fuel + 1 =>
    match arr.get? i with
    | none => arr
    | some e =>
      if hj : j < e.uris.length then
        let uri := e.uris.get ⟨j, hj⟩
        let matching := arr.filter (fun it => it.uris.contains uri)
        let newUris := pushNewUris e.uris matching
        normalizeEntryStep (arr.set i { e with uris := newUris }) i (j + 1) fuel
      else arr

/-- `normalizeUris` (src/js/errorHandler.js, lines 794-821): the outer
`for i` loop over all entries.  The fuel `2 * sumUrisLen a + 1` is an upper
bound on the number of iterations of the unbounded JavaScript inner loop
(proved as part of the characterisation below). -/
def normalizeUris {ι : Type} (arr : List (DedupEntry ι)) : List (DedupEntry ι) :=
  (List.range arr.length).foldl (fun a i => normalizeEntryStep a i 0 (2 * sumUrisLen a + 1)) arr

/-- `addCiteCountToItem` (src/js/errorHandler.js, lines 887-900): ensure the
`note` field exists (created as `''`), then prepend `Times cited: {count}`,
keeping a pre-existing non-empty note on the following line. -/
def addCiteCountToItem (item : Item) (count : Nat) : Item :=
  let countInfo := "Times cited: " ++ toString count
  match item.note with
  | none => { item with note := some countInfo }
  | some n => { item with note := some (if n = "" then countInfo else countInfo ++ "\n" ++ n) }

/-- Append an index to the duplicate set (JavaScript `Set.add`: membership
semantics, insertion order kept). -/
def addDupIndex (dups : List Nat) (ix : Nat) : List Nat :=
  if dups.contains ix then dups else dups ++ [ix]

/-- One step of the `for i` loop of `performDeduplication`
(src/js/errorHandler.js, lines 834-866), acting on the array together with the
`duplicateIndices` set. -/
def dedupStep (st : List (DedupEntry Item) × List Nat) (i : Nat) :
    List (DedupEntry Item) × List Nat :=
  let arr := st.1
  let dups := st.2
  match arr.get? i with
  | none => st
  | some cur =>
    if cur.index ∈ dups then st
    else if cur.uris.length = 0 then st
    else
      let uri := cur.uris.headD ""
      let matching := arr.filter (fun it => it.uris.contains uri && !dups.contains it.index)
      let count := matching.length
      let inds := matching.map (fun it => it.index)
      let item' := cur.item.map (fun it => addCiteCountToItem it count)
      let arr' := arr.set i { cur with count := count, indices := some inds, item := item' }
      let dups' := (matching.filter (fun m => cur.index < m.index)).foldl
        (fun d m => addDupIndex d m.index) dups
      (arr', dups')

/-- `performDeduplication` (src/js/errorHandler.js, lines 828-880): iterate
`dedupStep` over all positions, then drop the entries whose index was marked
duplicate. -/
def performDeduplication (arr : List (DedupEntry Item)) : List (DedupEntry Item) :=
  let st := (List.range arr.length).foldl dedupStep (arr, ([] : List Nat))
  st.1.filter (fun e => !st.2.contains e.index)

/-- Shape of the records returned by `deduplicateCitations`
(src/js/errorHandler.js, lines 755-762): `{itemData, uris, _count, _indices}`. -/
structure DedupRecord where
  itemData : Item
  uris : List String
  count : Nat
  indices : List Nat
deriving DecidableEq, Repr

/-- `deduplicateCitations` (src/js/errorHandler.js, lines 728-788): build the
deduplication array, normalise uris, deduplicate, then keep only the entries
with a non-null item, converting to the standard record shape
(`entry.indices || [entry.index]`). -/
def deduplicateCitations (cs : List (Cite Item)) : List DedupRecord :=
  if cs.length = 0 then []
  else
    let arr2 := performDeduplication (normalizeUris (mkDedupArray cs))
    (arr2.filter (fun e => e.item.isSome)).filterMap fun e =>
      e.item.map fun it =>
        { itemData := it, uris := e.uris, count := e.count,
          indices := e.indices.getD [e.index] }

/-- `isValidMetadata` (src/js/errorHandler.js, lines 946-960): the record must
have a non-empty (after trimming) title. -/
def isValidMetadata (metadata : Item) : Bool :=
  match metadata.title with
  | some t => decide ((jsTrim t).length > 0)
  | none => false

/-- `extractMetadata` (src/js/errorHandler.js, lines 907-939): keep the
`itemData` of records that pass the minimal-metadata validation. -/
def extractMetadata (deduplicated : List DedupRecord) : List Item :=
  deduplicated.foldl
    (fun acc c => if isValidMetadata c.itemData then acc ++ [c.itemData] else acc) []

/-! ## Output formatter (src/js/outputFormatter.js) -/

/-- The literal `Times cited: ` that every count annotation starts with. -/
def tcMarker : List Char := "Times cited: ".toList

/-- If `l` begins with `Times cited: ` followed by at least one digit and a
newline (the pattern `/Times cited: \d+\n/`), return the remainder after the
newline. -/
def tcLineAt (l : List Char) : Option (List Char) :=
  if l.take 13 = tcMarker then
    match (l.drop 13).span Char.isDigit with
    | (ds, rest) =>
      match rest with
      | '\n' :: tail => if ds.isEmpty then none else some tail
      | _ => none
  else none

/-- Left-to-right, non-overlapping removal of every `Times cited: \d+\n`
occurrence — the global `replace` of `cleanCitations`
(src/js/outputFormatter.js, line 108).  `fuel` bounds the recursion; every
call site passes the length of the list, which suffices because a match
consumes at least one character. -/
def removeTCAux : Nat → List Char → List Char
  | 0, l => l
  | _, [] => []
  | fuel + 1, c :: rest =>
    match tcLineAt (c :: rest) with
    | some rem => removeTCAux fuel rem
    | none => c :: removeTCAux fuel rest

/-- `note.replace(/Times cited: \d+\n/g, '')`. -/
def removeTimesCited (s : String) : String :=
  String.mk (removeTCAux s.toList.length s.toList)

/-- `cleanCitations` (src/js/outputFormatter.js, lines 91-118): for each
record with a truthy string `note`, remove the count lines; if the remaining
note trims to empty, delete the `note` field; all other fields are copied
unchanged.  A record whose `note` is absent or is the empty string (falsy) is
returned untouched. -/
def cleanCitations (citations : List Item) : List Item :=
  citations.map fun citation =>
    match citation.note with
    | some n =>
      if n = "" then citation
      else
        let n' := removeTimesCited n
        if jsTrim n' = "" then { citation with note := none }
        else { citation with note := some n' }
    | none => citation

/-- Digit-string to number, as `parseInt(digits, 10)` computes it on a pure
digit string. -/
def digitsToNat (ds : List Char) : Nat :=
  ds.foldl (fun n c => n * 10 + (c.toNat - '0'.toNat)) 0

/-- If `l` begins with `Times cited: ` followed by at least one digit
(the pattern `/Times cited: (\d+)/`), return the digit run. -/
def tcDigitsAt (l : List Char) : Option (List Char) :=
  if l.take 13 = tcMarker then
    match (l.drop 13).span Char.isDigit with
    | (ds, _) => if ds.isEmpty then none else some ds
  else none

/-- First match of `/Times cited: (\d+)/` anywhere in the character list. -/
def findTimesCited : List Char → Option (List Char)
  | [] => none
  | c :: rest =>
    match tcDigitsAt (c :: rest) with
    | some ds => some ds
    | none => findTimesCited rest

/-- `addCountsToTitle` (src/js/outputFormatter.js, lines 125-156): extract the
count from the note (`'NA'` when absent) and prepend `[{count} citations] ` to
a truthy title. -/
def addCountsToTitle (citations : List Item) : List Item :=
  citations.map fun citation =>
    let count :=
      match citation.note with
      | some n => match findTimesCited n.toList with
        | some ds => String.mk ds
        | none => "NA"
      | none => "NA"
    match citation.title with
    | some t => if t = "" then citation
        else { citation with title := some ("[" ++ count ++ " citations] " ++ t) }
    | none => citation

/-- If `l` begins with `[` + digits + ` citations] ` (the pattern
`/\[(\d+) citations\] /`), return the digit run and the remainder after the
matched text. -/
def markerDigitsAt : List Char → Option (List Char × List Char)
  | [] => none
  | c :: rest =>
    if c = '[' then
      match rest.span Char.isDigit with
      | (ds, r1) =>
        if ds.isEmpty then none
        else if r1.take 12 = " citations] ".toList then some (ds, r1.drop 12)
        else none
    else none

/-- Scan for the first match of `/\[(\d+) citations\] /`; on a hit return the
digit run together with the line with the matched text removed
(`line.replace(countMatch[0], '')`). -/
def parseCountMarkerAux : List Char → List Char → Option (List Char × List Char)
  | _, [] => none
  | acc, c :: rest =>
    match markerDigitsAt (c :: rest) with
    | some p => some (p.1, acc.reverse ++ p.2)
    | none => parseCountMarkerAux (c :: acc) rest

/-- `line.match(/\[(\d+) citations\] /)` plus the removal of the matched text:
returns `(digit string, cleaned line)` on a hit. -/
def parseCountMarker (line : String) : Option (String × String) :=
  (parseCountMarkerAux [] line.toList).map fun p => (String.mk p.1, String.mk p.2)

/-- Stable insertion of a `(count, line)` pair into a list sorted by
descending count: the element sinks past the elements with a strictly
greater count and stops in front of the first tie.  Under the `foldr` below
the inserted element always comes from earlier in the original list than
everything already inserted, so ties keep their original relative order —
exactly how the stable `sort((a, b) => b[0] - a[0])` orders them. -/
def insertByCountDesc (x : Nat × String) : List (Nat × String) → List (Nat × String)
  | [] => [x]
  | y :: ys => if x.1 < y.1 then y :: insertByCountDesc x ys else x :: y :: ys

/-- Stable sort by descending count (`formattedLines.sort((a, b) => b[0] - a[0])`). -/
def sortByCountDesc (l : List (Nat × String)) : List (Nat × String) :=
  l.foldr insertByCountDesc []

/-- The line re-parsing half of `formatBibliographyWithCounts`
(src/js/outputFormatter.js, lines 176-203): split the rendered bibliography
into lines, drop blank lines, tag each line with its extracted count (pattern
match on `[{N} citations] `, default 0), rewrite it as `{digits}\t{line}`,
sort descending by count, prepend the header and drop the body lines starting
with `0\t`. -/
def formatBibliographyWithCountsLines (bibliography : String) : String :=
  let lines := splitNl bibliography
  let tagged := lines.filterMap fun line =>
    if jsTrim line = "" then none
    else
      match parseCountMarker line with
      | some p => some (digitsToNat p.1.toList, p.1 ++ "\t" ++ p.2)
      | none => some (0, "0\t" ++ line)
  let sorted := sortByCountDesc tagged
  let body := (sorted.map (fun p => p.2)).filter fun l => !(jsStartsWith l "0\t")
  "cite_count\treference\n" ++ joinNl body

/-- `formatWithCitationJs` (src/js/outputFormatter.js, lines 218-271).
`render` stands for the external Citation.js capability
(`new Cite(json).format(fmt)`): `none` models a render that throws.  The
function as a whole returns `none` exactly when the JavaScript function
throws (capability absent or rendering failed). -/
def formatWithCitationJs (render : Option (List Item → String → Option String))
    (citations : List Item) (format : String) : Option String :=
  match render with
  | none => none
  | some r =>
    if citations.length = 0 then some ""
    else if format = "bibliography-with-counts" then
      match r (addCountsToTitle citations) "bibliography" with
      | some bibliography => some (formatBibliographyWithCountsLines bibliography)
      | none => none
    else
      let processed := if format = "data-with-counts" then citations
        else cleanCitations citations
      r processed format

/-- The author text of one fallback bibliography line:
`citation.author ? citation.author.map(a => a.family + ', ' + a.given).join(', ') : 'Unknown Author'`.
An empty author array is truthy in JavaScript and yields the empty string. -/
def fallbackAuthorText (citation : Item) : String :=
  match citation.author with
  | some as => joinWith ", " (as.map fun a => a.1 ++ ", " ++ a.2)
  | none => "Unknown Author"

/-- The title text of one fallback bibliography line (`citation.title || 'Unknown Title'`). -/
def fallbackTitleText (citation : Item) : String :=
  match citation.title with
  | some t => if t = "" then "Unknown Title" else t
  | none => "Unknown Title"

/-- `formatFallback` (src/js/outputFormatter.js, lines 279-308).  `stringify`
stands for the `JSON.stringify(citations, null, 2)` builtin. -/
def formatFallback (stringify : List Item → String) (citations : List Item)
    (format : String) : String :=
  if citations.length = 0 then ""
  else if format = "data" || format = "data-with-counts" then
    stringify (if format = "data" then cleanCitations citations else citations)
  else if format = "bibliography" then
    joinNl (citations.enum.map fun p =>
      toString (p.1 + 1) ++ ". " ++ fallbackAuthorText p.2 ++ ". " ++ fallbackTitleText p.2 ++ ".")
  else stringify citations

/-- Formatter cache (a JavaScript `Map`, modelled as an insertion-ordered
association list with unique keys). -/
structure FormatterState where
  cache : List (String × String)
deriving DecidableEq, Repr

/-- `Map.get`. -/
def cacheGet (cache : List (String × String)) (k : String) : Option String :=
  (cache.find? fun p => p.1 == k).map fun p => p.2

/-- `Map.set`: overwrite in place when the key exists, else append. -/
def cacheSet (cache : List (String × String)) (k v : String) : List (String × String) :=
  if cache.any (fun p => p.1 == k) then
    cache.map fun p => if p.1 == k then (k, v) else p
  else cache ++ [(k, v)]

/-- `generateCacheKey` (src/js/outputFormatter.js, lines 80-84) with the
default empty options object: `format + '_' + JSON.stringify(citations).slice(0, 100) + '_' + '\x7b\x7d'`. -/
def generateCacheKey (stringifyCompact : List Item → String)
    (citations : List Item) (format : String) : String :=
  format ++ "_" ++ jsTakeChars (stringifyCompact citations) 100 ++ "_\x7b\x7d"

/-- `OutputFormatter.format` (src/js/outputFormatter.js, lines 369-452) with
the default options, for a caller-supplied citation list.  `.error` models the
function throwing.  The inner `try/catch` around `formatWithCitationJs` turns
its failure into a `formatFallback` call; the result is cached with
oldest-entry eviction beyond 100 entries. -/
def formatOutput (render : Option (List Item → String → Option String))
    (stringify : List Item → String) (st : FormatterState)
    (format : String) (citations : List Item) :
    Except String (String × FormatterState) :=
  let cacheKey := generateCacheKey stringify citations format
  match cacheGet st.cache cacheKey with
  | some cached => .ok (cached, st)
  | none =>
    if format = "" then .error "Format must be a non-empty string"
    else if citations.length = 0 then .ok ("", st)
    else
      let result :=
        match formatWithCitationJs render citations format with
        | some r => r
        | none => formatFallback stringify citations format
      let cache1 := cacheSet st.cache cacheKey result
      let cache2 := if cache1.length > 100 then cache1.drop 1 else cache1
      .ok (result, ⟨cache2⟩)

/-! ## Field scanner (src/js/outputFormatter.js, OfficeOpenXML strategy) -/

/-- A sibling node in the complex-field walk.  `isElement` distinguishes
element nodes (which have `querySelectorAll`/`getElementsByTagName`) from
text nodes; `hasFieldEnd` models `querySelectorAll(FIELD_CHAR_END).length > 0`
and `instrTexts` the `textContent` of the node's `w:instrText` descendants in
document order. -/
structure XmlRun where
  isElement : Bool
  hasFieldEnd : Bool
  instrTexts : List String
deriving DecidableEq, Repr

/-- The hard iteration ceiling of the sibling walk (`maxIterations`,
src/js/outputFormatter.js, line 740). -/
def maxFieldIterations : Nat := 1000

/-- The `while (nextRun && iterationCount < maxIterations)` loop of
`extractComplexFieldContent` (src/js/outputFormatter.js, lines 742-766):
returns the accumulated instruction text and the final iteration count. -/
def complexFieldLoop : List XmlRun → Nat → String → String × Nat
  | [], it, acc => (acc, it)
  | run :: rest, it, acc =>
    if it < maxFieldIterations then
      let it' := it + 1
      if run.isElement && run.hasFieldEnd then (acc, it')
      else
        let acc' := if run.isElement then acc ++ String.join run.instrTexts else acc
        complexFieldLoop rest it' acc'
    else (acc, it)

/-- Result of one complex-field extraction: the trimmed instruction text that
the function returns, the number of loop iterations performed, and whether the
`Reached maximum iterations` warning was logged
(`iterationCount >= maxIterations`). -/
structure ComplexFieldResult where
  text : String
  iterations : Nat
  warned : Bool
deriving DecidableEq, Repr

/-- `extractComplexFieldContent` (src/js/outputFormatter.js, lines 732-778),
applied to the sibling chain following one begin marker. -/
def extractComplexFieldContent (siblings : List XmlRun) : ComplexFieldResult :=
  let r := complexFieldLoop siblings 0 ""
  { text := jsTrim r.1, iterations := r.2, warned := decide (maxFieldIterations ≤ r.2) }

/-- `extractOfficeOpenXmlFields` (src/js/outputFormatter.js, lines 691-724):
one extraction per begin marker (each given here as its sibling chain); the
trimmed content is kept when truthy and non-blank
(`if (fieldContent && fieldContent.trim().length > 0)`). -/
def extractOfficeOpenXmlFields (fieldStarts : List (List XmlRun)) : List String :=
  fieldStarts.foldl
    (fun fields siblings =>
      let fieldContent := (extractComplexFieldContent siblings).text
      if fieldContent ≠ "" && (jsTrim fieldContent).length > 0 then fields ++ [fieldContent]
      else fields)
    []

/-! ## Citation field parser (src/js/errorHandler.js, parseField/parseFields) -/

/-- A JSON value, the result type of the external `JSON.parse` builtin. -/
inductive JValue where
  | null : JValue
  | bool : Bool → JValue
  | num : Int → JValue
  | str : String → JValue
  | arr : List JValue → JValue
  | obj : List (String × JValue) → JValue

/-- `typeof v === 'object' && v` — arrays and objects are JavaScript objects;
`null` has type `object` but is falsy. -/
def isJsObject : JValue → Bool
  | .obj _ => true
  | .arr _ => true
  | _ => false

/-- Property lookup on a JavaScript object (duplicate keys in a JSON text bind
last, so the last occurrence wins). -/
def jLookup (fields : List (String × JValue)) (key : String) : Option JValue :=
  (fields.reverse.find? fun p => p.1 == key).map fun p => p.2

/-- Match of the anchored pattern `CSL_GENERAL = /^(ADDIN )?(ZOTERO_ITEM )?CSL_CITATION/`
(src/js/errorHandler.js, line 1268), returning the text after the matched
portion (which is what `field.replace(cslFieldPrefix, '')` keeps). -/
def cslGeneralMatch (field : String) : Option String :=
  let s1 := if jsStartsWith field "ADDIN " then jsDropChars field 6 else field
  let s2 := if jsStartsWith s1 "ZOTERO_ITEM " then jsDropChars s1 12 else s1
  if jsStartsWith s2 "CSL_CITATION" then some (jsDropChars s2 12) else none

/-- `[0-9A-Za-z]`. -/
def isHashChar (c : Char) : Bool :=
  c.isDigit || (('A' ≤ c && c ≤ 'Z') || ('a' ≤ c && c ≤ 'z'))

/-- `' '` followed by a non-empty all-alphanumeric run reaching the end of the
string — the ` [0-9A-Za-z]+$` tail of the hash-stripping pattern. -/
def hashTail : List Char → Bool
  | ' ' :: hs => !hs.isEmpty && hs.all isHashChar
  | _ => false

/-- Candidate end positions for the greedy `.+` of
`/(\{.+\}) [0-9A-Za-z]+$/` inside the zone that follows an opening brace:
positions `q ≥ 1` holding `\x7d` whose tail is a hash and whose body contains
no newline (`.` does not match newlines). -/
def hashCandidates (zone : List Char) : List Nat :=
  (List.range zone.length).filter fun q =>
    decide (1 ≤ q) && (zone.getD q ' ' == '}') && hashTail (zone.drop (q + 1))
      && (zone.take q).all (fun c => c ≠ '\n')

/-- `cleanedField.replace(/(\{.+\}) [0-9A-Za-z]+$/, '$1')`: find the leftmost
opening brace from which the pattern matches, take the greedy (largest)
closing-brace position, and drop the ` hash` suffix; if no match, return the
string unchanged. -/
def stripTrailingHash (s : String) : String :=
  let l := s.toList
  match (List.range l.length).find? (fun p =>
      (l.getD p ' ' == '{') && ((hashCandidates (l.drop (p + 1))).getLast?.isSome)) with
  | none => s
  | some p =>
    match (hashCandidates (l.drop (p + 1))).getLast? with
    | none => s
    | some q => String.mk (l.take (p + 1) ++ (l.drop (p + 1)).take (q + 1))

/-- One parsed citation entry (`{...cite, _fieldIndex, _citeIndex, _originalField}`,
src/js/errorHandler.js, lines 668-673). -/
structure ParsedCitation where
  cite : JValue
  fieldIndex : Nat
  citeIndex : Nat
  originalField : String

/-- `parseField` (src/js/errorHandler.js, lines 628-691).  `jsonParse` is the
external `JSON.parse` builtin; `none` models it throwing on malformed input.
Every failure path of the JavaScript function (unmatched field prefix, empty
cleaned text, malformed JSON, non-object payload, missing or non-array
`citationItems`) returns the empty list, as the function catches all errors. -/
def parseField (jsonParse : String → Option JValue) (field : String)
    (fieldIndex : Nat) : List ParsedCitation :=
  match cslGeneralMatch field with
  | none => []
  | some rest =>
    let cleaned := stripTrailingHash (jsTrim rest)
    if cleaned = "" then []
    else
      match jsonParse cleaned with
      | none => []
      | some fieldObject =>
        if !isJsObject fieldObject then []
        else
          match fieldObject with
          | .obj fields =>
            match jLookup fields "citationItems" with
            | some (.arr items) =>
              items.enum.filterMap fun p =>
                if isJsObject p.2 then
                  some { cite := p.2, fieldIndex := fieldIndex, citeIndex := p.1,
                         originalField := field }
                else none
            | _ => []
          | _ => []

/-- `parseFields` (src/js/errorHandler.js, lines 698-721): fold over all
fields, appending each field's citations. -/
def parseFields (jsonParse : String → Option JValue) (fields : List String) :
    List ParsedCitation :=
  fields.enum.foldl (fun acc p => acc ++ parseField jsonParse p.2 p.1) []

/-! ## Heap-level model of the deduplication write (frame-effect claim)

In JavaScript the `itemData` objects are shared by reference: the cell built
by `deduplicateCitations` aliases the caller's object, and
`addCiteCountToItem` mutates it in place.  To state that, the store of
`itemData` objects is made explicit: references are indices into an `ItemStore`
and a `Cite Nat` carries a reference instead of a value. -/

/-- The store of `itemData` objects; a reference is an index. -/
def ItemStore : Type := List Item

/-- Read an `itemData` object through a reference. -/
def storeRead (st : ItemStore) (r : Nat) : Option Item :=
  List.get? st r

/-- The in-place `addCiteCountToItem(item, count)` call: mutate the referenced
object in the store (`List.set` leaves the store unchanged when the reference
is out of range, which cannot happen for a JavaScript object reference). -/
def addCiteCountToStore (st : ItemStore) (r : Nat) (count : Nat) : ItemStore :=
  match storeRead st r with
  | some it => st.set r (addCiteCountToItem it count)
  | none => st

/-- `dedupStep` on the heap-level array: identical control flow, but the
count annotation is written through the reference into the store and the
entry's `item` reference itself is left unchanged. -/
def dedupStepRef (st : (List (DedupEntry Nat) × List Nat) × ItemStore) (i : Nat) :
    (List (DedupEntry Nat) × List Nat) × ItemStore :=
  let arr := st.1.1
  let dups := st.1.2
  let store := st.2
  match arr.get? i with
  | none => st
  | some cur =>
    if cur.index ∈ dups then st
    else if cur.uris.length = 0 then st
    else
      let uri := cur.uris.headD ""
      let matching := arr.filter (fun it => it.uris.contains uri && !dups.contains it.index)
      let count := matching.length
      let inds := matching.map (fun it => it.index)
      let store' := match cur.item with
        | some r => addCiteCountToStore store r count
        | none => store
      let arr' := arr.set i { cur with count := count, indices := some inds }
      let dups' := (matching.filter (fun m => cur.index < m.index)).foldl
        (fun d m => addDupIndex d m.index) dups
      ((arr', dups'), store')

/-- `performDeduplication` on the heap-level array, threading the store. -/
def performDeduplicationRef (arr : List (DedupEntry Nat)) (store : ItemStore) :
    List (DedupEntry Nat) × ItemStore :=
  let st := (List.range arr.length).foldl dedupStepRef ((arr, ([] : List Nat)), store)
  (st.1.1.filter (fun e => !st.1.2.contains e.index), st.2)

/-- Heap-level counterpart of `DedupRecord`: `itemData` is a reference. -/
structure DedupRecordRef where
  itemData : Nat
  uris : List String
  count : Nat
  indices : List Nat
deriving DecidableEq, Repr

/-- `deduplicateCitations` on the heap-level citation list: same pipeline,
with the count-annotation writes going through the store.  The caller's list
`cs` itself is never written to — exactly as `processFields` keeps exposing
the same `parsedCitations` array as `rawCitations`. -/
def deduplicateCitationsRef (cs : List (Cite Nat)) (store : ItemStore) :
    List DedupRecordRef × ItemStore :=
  if cs.length = 0 then ([], store)
  else
    let r := performDeduplicationRef (normalizeUris (mkDedupArray cs)) store
    ((r.1.filter (fun e => e.item.isSome)).filterMap fun e =>
        e.item.map fun ref =>
          { itemData := ref, uris := e.uris, count := e.count,
            indices := e.indices.getD [e.index] },
      r.2)

/-! ## Specification-side notions used by the claims -/

/-- The `uris` list of the citation at position `k` (`[]` when out of range —
an out-of-range position carries no identifiers). -/
def urisAt {ι : Type} (cs : List (Cite ι)) (k : Nat) : List String :=
  ((cs.get? k).map fun c => c.uris).getD []

/-- Two entry positions share an identifier. -/
def sharesUri {ι : Type} (cs : List (Cite ι)) (a b : Nat) : Prop :=
  ∃ u, u ∈ urisAt cs a ∧ u ∈ urisAt cs b

/-- Entry positions connected directly or transitively through shared
identifiers (the spec's transitivity law). -/
def ConnEntries {ι : Type} (cs : List (Cite ι)) : Nat → Nat → Prop :=
  Relation.ReflTransGen (sharesUri cs)

/-- The identifiers reachable from entry `a`: those carried by any entry
connected to `a`. -/
def reachableUri {ι : Type} (cs : List (Cite ι)) (a : Nat) (u : String) : Prop :=
  ∃ b, ConnEntries cs a b ∧ u ∈ urisAt cs b

/-- The closure computed by the `normalizeUris` inner loop for the entry at
position `i` of array `A`: its own uris, closed under "an entry carrying a
uri already in the set contributes all its uris". -/
inductive UriClosure {ι : Type} (A : List (DedupEntry ι)) (i : Nat) : String → Prop
  | base {u : String} : u ∈ (A.getD i default).uris → UriClosure A i u
  | step {u v : String} {k : Nat} : UriClosure A i u → k < A.length →
      u ∈ (A.getD k default).uris → v ∈ (A.getD k default).uris → UriClosure A i v

/-- Two uri lists denote the same set. -/
def eqUriSet (xs ys : List String) : Prop := xs ⊆ ys ∧ ys ⊆ xs

/-- The member positions of a deduplication cluster as exposed by the output
(`entry.indices || [entry.index]`). -/
def clusterMembers {ι : Type} (e : DedupEntry ι) : List Nat :=
  e.indices.getD [e.index]

/-- The line re-parsing of the tabular counts format as the amended claim
describes it: every line is tagged with its extracted digit run (unmarked
lines, including blank ones, get the `0` tag), rewritten as
`{digits}\t{stripped line}`, stably sorted by descending numeric count, and
the body drops every line starting with `0\t` after the header. -/
def bibliographyWithCountsAmended (bibliography : String) : String :=
  let tagged := (splitNl bibliography).map fun line =>
    match parseCountMarker line with
    | some p => (digitsToNat p.1.toList, p.1 ++ "\t" ++ p.2)
    | none => ((0 : Nat), "0\t" ++ line)
  let body := ((sortByCountDesc tagged).map fun p => p.2).filter fun l =>
    !(jsStartsWith l "0\t")
  "cite_count\treference\n" ++ joinNl body

/-- The numbered `"{i}. {Author}. {Title}."` listing the fallback produces for
the `bibliography` format, in input order. -/
def numberedAuthorTitleListing (citations : List Item) : String :=
  joinNl (citations.enum.map fun p =>
    toString (p.1 + 1) ++ ". " ++ fallbackAuthorText p.2 ++ ". " ++ fallbackTitleText p.2 ++ ".")

/-- The uris of the entry at position `k` of a deduplication array
(`[]` out of range). -/
def entryUris {ι : Type} (A : List (DedupEntry ι)) (k : Nat) : List String :=
  (A.getD k default).uris

/-- Two positions of a deduplication array share a uri. -/
def entryShares {ι : Type} (A : List (DedupEntry ι)) (a b : Nat) : Prop :=
  ∃ u, u ∈ entryUris A a ∧ u ∈ entryUris A b

/-- Positions connected directly or transitively through shared uris. -/
def EntryConn {ι : Type} (A : List (DedupEntry ι)) : Nat → Nat → Prop :=
  Relation.ReflTransGen (entryShares A)

/-- The uris reachable from position `a`: those of any connected position. -/
def entryReach {ι : Type} (A : List (DedupEntry ι)) (a : Nat) (u : String) : Prop :=
  ∃ b, EntryConn A a b ∧ u ∈ entryUris A b

/-- One summand of the termination potential of the `normalizeUris` inner
loop: an entry whose uris are not yet all absorbed into the current list
still "owes" its length. -/
def uriTerm {ι : Type} (A : List (DedupEntry ι)) (c : List String) (k : Nat) : Nat :=
  if (A.getD k default).uris.all (fun u => c.contains u) then 0
  else (A.getD k default).uris.length

/-- Termination potential of the `normalizeUris` inner loop: current list
length plus the owed lengths.  It never increases along the loop and bounds
the final list length, which is why `2 * sumUrisLen + 1` fuel suffices. -/
def uriPotential {ι : Type} (A : List (DedupEntry ι)) (c : List String) : Nat :=
  c.length + ∑ k in Finset.range A.length, uriTerm A c k

/-- Invariant of the `normalizeUris` outer loop after processing the first
`i` entries: untouched entries are original; processed entries carry their
original uris extended by exactly the uris reachable through shared
identifiers in the original array. -/
def NormInv {ι : Type} (A₀ B : List (DedupEntry ι)) (i : Nat) : Prop :=
  B.length = A₀.length ∧
  (∀ k, i ≤ k → B.getD k default = A₀.getD k default) ∧
  (∀ k, k < i → k < A₀.length →
    (∃ t, B.getD k default = { A₀.getD k default with uris := (A₀.getD k default).uris ++ t }
        ∧ ∀ v ∈ t, ¬v ∈ (A₀.getD k default).uris) ∧
    (∀ u, u ∈ (B.getD k default).uris ↔ entryReach A₀ k u))

/-- Boolean test for "same uri set". -/
def eqUriSetB (xs ys : List String) : Bool :=
  xs.all (fun u => ys.contains u) && ys.all (fun u => xs.contains u)

/-- The positions forming the deduplication cluster of position `k`: all
positions carrying the same uri set. -/
def classPositions (B : List (DedupEntry Item)) (k : Nat) : List Nat :=
  (List.range B.length).filter fun q => eqUriSetB (entryUris B q) (entryUris B k)

/-- Same-uri-set relation between positions. -/
def eqS (B : List (DedupEntry Item)) (p q : Nat) : Prop :=
  ∀ u, u ∈ entryUris B p ↔ u ∈ entryUris B q

/-- Invariant of the `performDeduplication` loop over a saturated array `B`
after the first `i` steps: lengths, uris and index fields are untouched;
positions at or beyond `i` are untouched; the duplicate set contains exactly
the positions with a same-set classmate of smaller index already processed;
processed positions are either untouched (skipped or absorbed) or carry the
full cluster data; and the counts of unabsorbed entries always sum to the
array length. -/
def DedupInv (B : List (DedupEntry Item)) (i : Nat)
    (st : List (DedupEntry Item) × List Nat) : Prop :=
  st.1.length = B.length ∧
  (∀ k, k < B.length → entryUris st.1 k = entryUris B k
      ∧ (st.1.getD k default).index = (B.getD k default).index) ∧
  (∀ k, i ≤ k → st.1.getD k default = B.getD k default) ∧
  (∀ m, m ∈ st.2 ↔ m < B.length ∧ entryUris B m ≠ [] ∧ ∃ r, r < i ∧ r < m ∧ eqS B r m) ∧
  (∀ k, k < i → k < B.length →
    ((entryUris B k = [] ∨ ∃ r, r < k ∧ eqS B r k) → st.1.getD k default = B.getD k default)
    ∧ (entryUris B k ≠ [] → (∀ r, r < k → ¬eqS B r k) →
        st.1.getD k default
          = { B.getD k default with
              count := (classPositions B k).length,
              indices := some (classPositions B k),
              item := (B.getD k default).item.map
                fun it => addCiteCountToItem it (classPositions B k).length })) ∧
  (∑ k in Finset.range B.length,
      if k ∈ st.2 then 0 else (st.1.getD k default).count) = B.length

/-- Invariant of the heap-level deduplication loop after `i` steps, over the
normalised array `B` and initial store `store`: array length, item references,
indices and uris of every cell are preserved; unprocessed cells are untouched;
the store keeps its length; the store cell behind every annotated entry holds
the original object with the entry's count prepended; unannotated references
are untouched; and every processed unabsorbed entry with identifiers has been
annotated. -/
def DedupRefInv (B : List (DedupEntry Nat)) (store : ItemStore) (i : Nat)
    (σ : (List (DedupEntry Nat) × List Nat) × ItemStore) : Prop :=
  σ.1.1.length = B.length ∧
  (∀ k, k < B.length → (σ.1.1.getD k default).item = (B.getD k default).item
      ∧ (σ.1.1.getD k default).index = k
      ∧ (σ.1.1.getD k default).uris = (B.getD k default).uris) ∧
  (∀ k, i ≤ k → σ.1.1.getD k default = B.getD k default) ∧
  σ.2.length = store.length ∧
  (∀ k, k < B.length → (σ.1.1.getD k default).indices.isSome = true →
    ∀ r, (B.getD k default).item = some r →
      storeRead σ.2 r = (storeRead store r).map
        fun it => addCiteCountToItem it (σ.1.1.getD k default).count) ∧
  (∀ r, (∀ k, k < B.length → (σ.1.1.getD k default).indices.isSome = true →
      (B.getD k default).item ≠ some r) → storeRead σ.2 r = storeRead store r) ∧
  (∀ k, k < i → k < B.length → (σ.1.1.getD k default).uris ≠ [] → k ∉ σ.1.2 →
    (σ.1.1.getD k default).indices.isSome = true)

lemma complexFieldLoop_iterations_le (l : List XmlRun) :
    ∀ it acc, it ≤ maxFieldIterations → (complexFieldLoop l it acc).2 ≤ maxFieldIterations := by
  induction l with
  | nil => intro it acc h; simpa [complexFieldLoop] using h
  | cons run rest ih =>
    intro it acc h
    simp only [complexFieldLoop]
    split
    · rename_i hlt
      split
      · simpa using hlt
      · exact ih (it + 1) _ hlt
    · simpa using h

lemma complexFieldLoop_take (l : List XmlRun) :
    ∀ it acc, it ≤ maxFieldIterations →
      complexFieldLoop l it acc = complexFieldLoop (l.take (maxFieldIterations - it)) it acc := by
  induction l with
  | nil => intro it acc _; simp [List.take_nil]
  | cons run rest ih =>
    intro it acc h
    by_cases hlt : it < maxFieldIterations
    · have hs : maxFieldIterations - it = (maxFieldIterations - (it + 1)) + 1 := by omega
      rw [hs, List.take_succ_cons]
      simp only [complexFieldLoop, if_pos hlt]
      split
      · rfl
      · exact ih (it + 1) _ hlt
    · have hs : maxFieldIterations - it = 0 := by omega
      rw [hs, List.take_zero]
      simp only [complexFieldLoop, if_neg hlt]

lemma officeFold (cs : List (List XmlRun)) :
    ∀ acc, cs.foldl
      (fun fields siblings =>
        let fieldContent := (extractComplexFieldContent siblings).text
        if fieldContent ≠ "" && (jsTrim fieldContent).length > 0 then fields ++ [fieldContent]
        else fields) acc
      = acc ++ ((cs.map fun c => (extractComplexFieldContent c).text).filter
          fun s => s ≠ "" && (jsTrim s).length > 0) := by
  induction cs with
  | nil => intro acc; simp
  | cons c cs ih =>
    intro acc
    simp only [List.foldl_cons, List.map_cons, List.filter_cons]
    cases hc : ((extractComplexFieldContent c).text ≠ "" && (jsTrim (extractComplexFieldContent c).text).length > 0) with
    | true => rw [if_pos rfl, if_pos rfl, ih, List.append_assoc, List.singleton_append]
    | false => rw [if_neg Bool.false_ne_true, if_neg Bool.false_ne_true, ih]

/-- C5: the complex-field sibling walk performs at most 1000 iterations on any
sibling chain (in particular it terminates even when no end marker exists);
its result is exactly the extraction of the first 1000 siblings (the partial
trimmed accumulation when the ceiling cuts the walk); the non-fatal warning is
logged exactly when the ceiling is reached; and the marker scan processes
every begin marker independently, keeping only non-empty trimmed
accumulations. -/
theorem claim5_sibling_walk_ceiling (siblings : List XmlRun) (chains : List (List XmlRun)) :
    (extractComplexFieldContent siblings).iterations ≤ maxFieldIterations ∧
    extractComplexFieldContent siblings
      = extractComplexFieldContent (siblings.take maxFieldIterations) ∧
    ((extractComplexFieldContent siblings).warned
      ↔ (extractComplexFieldContent siblings).iterations = maxFieldIterations) ∧
    extractOfficeOpenXmlFields chains
      = ((chains.map fun c => (extractComplexFieldContent c).text).filter
          fun s => s ≠ "" && (jsTrim s).length > 0) := by
  have hle := complexFieldLoop_iterations_le siblings 0 "" (by simp [maxFieldIterations])
  refine ⟨hle, ?_, ?_, ?_⟩
  · have ht := complexFieldLoop_take siblings 0 "" (by simp [maxFieldIterations])
    simp only [Nat.sub_zero] at ht
    unfold extractComplexFieldContent
    rw [ht]
  · unfold extractComplexFieldContent
    simp only [decide_eq_true_eq]
    omega
  · unfold extractOfficeOpenXmlFields
    simpa using officeFold chains []

lemma parseFields_foldl (jp : String → Option JValue) (ps : List (Nat × String)) :
    ∀ acc, ps.foldl (fun acc p => acc ++ parseField jp p.2 p.1) acc
      = acc ++ (ps.map fun p => parseField jp p.2 p.1).flatten := by
  induction ps with
  | nil => intro acc; simp
  | cons p ps ih => intro acc; simp [ih, List.append_assoc]

/-- C6: a field string with no recognised citation prefix yields zero entries;
so does a matching field whose payload fails to parse as JSON, or parses to
anything that is not an object carrying a `citationItems` array.  No error
escapes (the parser is a total function into entry lists), and the batch
parser is the independent concatenation of the per-field results, so one bad
field never affects the remaining fields. -/
theorem claim6_parse_failures_yield_nothing (jp : String → Option JValue)
    (f : String) (i : Nat) (fs : List String) :
    (cslGeneralMatch f = none → parseField jp f i = []) ∧
    (∀ rest, cslGeneralMatch f = some rest →
      jp (stripTrailingHash (jsTrim rest)) = none → parseField jp f i = []) ∧
    (∀ rest v, cslGeneralMatch f = some rest →
      jp (stripTrailingHash (jsTrim rest)) = some v →
      (∀ fields items, v = JValue.obj fields →
        jLookup fields "citationItems" ≠ some (JValue.arr items)) →
      parseField jp f i = []) ∧
    parseFields jp fs = (fs.enum.map fun p => parseField jp p.2 p.1).flatten := by
  refine ⟨?_, ?_, ?_, ?_⟩
  · intro h; simp [parseField, h]
  · intro rest hm hp
    simp only [parseField, hm]
    split
    · rfl
    · simp [hp]
  · intro rest v hm hp hno
    simp only [parseField, hm]
    split
    · rfl
    · rw [hp]
      cases v with
      | obj fields =>
        simp only [isJsObject, Bool.not_true, if_false]
        cases hl : jLookup fields "citationItems" with
        | none => rfl
        | some w =>
          cases w with
          | arr items => exact absurd hl (hno fields items rfl)
          | obj fs2 => rfl
          | null => rfl
          | bool b => rfl
          | num n => rfl
          | str s => rfl
      | arr xs => simp [isJsObject]
      | null => simp [isJsObject]
      | bool b => simp [isJsObject]
      | num n => simp [isJsObject]
      | str s => simp [isJsObject]
  · simpa [parseFields] using parseFields_foldl jp fs.enum []

/-- Concrete instance of C6: an unrecognised field and a matching field whose
payload the JSON parser rejects both produce zero entries, and a batch
containing only such fields parses to the empty entry list. -/
theorem claim6_witness :
    parseField (fun _ => none) "not a citation field" 0 = [] ∧
    parseField (fun _ => none) "ADDIN CSL_CITATION bad" 1 = [] ∧
    parseFields (fun _ => none) ["not a citation field", "ADDIN CSL_CITATION bad"] = [] := by
  refine ⟨(claim6_parse_failures_yield_nothing (fun _ => none) "not a citation field" 0 []).1 (by rfl),
    (claim6_parse_failures_yield_nothing (fun _ => none) "ADDIN CSL_CITATION bad" 1 []).2.1 " bad" (by rfl) rfl,
    ?_⟩
  rw [(claim6_parse_failures_yield_nothing (fun _ => none) "" 0
    ["not a citation field", "ADDIN CSL_CITATION bad"]).2.2.2]
  rfl

/-- C7 (code bug): the `data`-format cleaning removes a `Times cited: N` line
only when a newline follows it (`/Times cited: \d+\n/g`).  The annotation that
`addCiteCountToItem` writes for a record with no pre-existing note is exactly
`Times cited: N` with no trailing newline, so for such records — the common
case — `cleanCitations` leaves the count annotation in place instead of
removing it and deleting the then-empty note field.  When a newline does
follow (pre-existing note), the line is removed as specified, and all other
fields stay unchanged. -/
theorem claim7_clean_citations_misses_trailing_line :
    addCiteCountToItem {} 2 = { note := some "Times cited: 2" } ∧
    cleanCitations [{ note := some "Times cited: 2" }]
      = [{ note := some "Times cited: 2" }] ∧
    cleanCitations
        [{ title := some "T", author := some [("F", "G")],
           note := some "Times cited: 2\nkept note", extra := [("issued", "2020")] }]
      = [{ title := some "T", author := some [("F", "G")],
           note := some "kept note", extra := [("issued", "2020")] }] := by
  refine ⟨by decide, by decide, by decide⟩

lemma mem_insertByCountDesc {b x : Nat × String} {s : List (Nat × String)} :
    b ∈ insertByCountDesc x s ↔ b = x ∨ b ∈ s := by
  induction s with
  | nil => simp [insertByCountDesc]
  | cons y ys ih =>
    rw [insertByCountDesc]
    split
    · simp only [List.mem_cons, ih]
      try tauto
    · simp only [List.mem_cons]
      try tauto

lemma insertByCountDesc_of_le {x : Nat × String} {s : List (Nat × String)}
    (h : ∀ z ∈ s, z.1 ≤ x.1) : insertByCountDesc x s = x :: s := by
  cases s with
  | nil => rfl
  | cons y ys =>
    rw [insertByCountDesc, if_neg (Nat.not_lt.mpr (h y (by simp)))]

lemma sorted_insertByCountDesc {x : Nat × String} {s : List (Nat × String)}
    (h : List.Sorted (fun a b : Nat × String => b.1 ≤ a.1) s) :
    List.Sorted (fun a b : Nat × String => b.1 ≤ a.1) (insertByCountDesc x s) := by
  induction s with
  | nil => simp [insertByCountDesc]
  | cons y ys ih =>
    rw [List.sorted_cons] at h
    obtain ⟨hy, hys⟩ := h
    rw [insertByCountDesc]
    split
    · rename_i hle
      rw [List.sorted_cons]
      refine ⟨?_, ih hys⟩
      intro b hb
      rcases mem_insertByCountDesc.mp hb with hb | hb
      · subst hb; exact Nat.le_of_lt hle
      · exact hy b hb
    · rename_i hgt
      rw [List.sorted_cons]
      refine ⟨?_, List.sorted_cons.mpr ⟨hy, hys⟩⟩
      intro b hb
      rcases List.mem_cons.mp hb with hb | hb
      · subst hb; exact Nat.le_of_not_lt hgt
      · exact Nat.le_trans (hy b hb) (Nat.le_of_not_lt hgt)

lemma filter_insertByCountDesc (p : Nat × String → Bool) {x : Nat × String}
    {s : List (Nat × String)}
    (hs : List.Sorted (fun a b : Nat × String => b.1 ≤ a.1) s) :
    (insertByCountDesc x s).filter p
      = if p x then insertByCountDesc x (s.filter p) else s.filter p := by
  induction s with
  | nil => cases hp : p x <;> simp [insertByCountDesc, hp]
  | cons y ys ih =>
    rw [List.sorted_cons] at hs
    obtain ⟨hy, hys⟩ := hs
    rw [insertByCountDesc]
    split
    · rename_i hle
      rw [List.filter_cons]
      cases hpy : p y with
      | false =>
        simp only [Bool.false_eq_true, if_false]
        rw [ih hys, List.filter_cons, hpy]
        simp only [Bool.false_eq_true, if_false]
      | true =>
        simp only [if_true]
        rw [ih hys, List.filter_cons, hpy]
        simp only [if_true]
        cases hpx : p x with
        | false => simp
        | true =>
          simp only [if_true]
          rw [insertByCountDesc, if_pos hle]
    · rename_i hgt
      have hxle : ∀ z ∈ (y :: ys).filter p, z.1 ≤ x.1 := by
        intro z hz
        have hz' := List.mem_of_mem_filter hz
        rcases List.mem_cons.mp hz' with hz' | hz'
        · subst hz'; exact Nat.le_of_not_lt hgt
        · exact Nat.le_trans (hy z hz') (Nat.le_of_not_lt hgt)
      rw [List.filter_cons]
      cases hpx : p x with
      | false => simp
      | true =>
        simp only [if_true]
        rw [insertByCountDesc_of_le hxle]

lemma sorted_sortByCountDesc (l : List (Nat × String)) :
    List.Sorted (fun a b : Nat × String => b.1 ≤ a.1) (sortByCountDesc l) := by
  induction l with
  | nil => simp [sortByCountDesc]
  | cons a l ih => exact sorted_insertByCountDesc ih

lemma filter_sortByCountDesc (p : Nat × String → Bool) (l : List (Nat × String)) :
    (sortByCountDesc l).filter p = sortByCountDesc (l.filter p) := by
  induction l with
  | nil => rfl
  | cons a l ih =>
    show (insertByCountDesc a (sortByCountDesc l)).filter p = _
    rw [filter_insertByCountDesc p (sorted_sortByCountDesc l), ih, List.filter_cons]
    cases hp : p a with
    | false => simp
    | true => simp only [if_true]; rfl

lemma perm_insertByCountDesc (x : Nat × String) (s : List (Nat × String)) :
    List.Perm (insertByCountDesc x s) (x :: s) := by
  induction s with
  | nil => exact List.Perm.refl _
  | cons y ys ih =>
    rw [insertByCountDesc]
    split
    · exact List.Perm.trans (List.Perm.cons y ih) (List.Perm.swap x y ys)
    · exact List.Perm.refl _

lemma perm_sortByCountDesc (l : List (Nat × String)) :
    List.Perm (sortByCountDesc l) l := by
  induction l with
  | nil => exact List.Perm.refl _
  | cons a l ih =>
    exact List.Perm.trans (perm_insertByCountDesc a (sortByCountDesc l))
      (List.Perm.cons a ih)

lemma sortByCountDesc_of_const {c : Nat} {l : List (Nat × String)}
    (h : ∀ z ∈ l, z.1 = c) : sortByCountDesc l = l := by
  induction l with
  | nil => rfl
  | cons a l ih =>
    show insertByCountDesc a (sortByCountDesc l) = a :: l
    rw [ih fun z hz => h z (List.mem_cons_of_mem a hz)]
    refine insertByCountDesc_of_le fun z hz => ?_
    rw [h z (List.mem_cons_of_mem a hz), h a (List.mem_cons_self a l)]

/-- Tie stability of the modelled sort, matching the ES2019-stable
`sort((a, b) => b[0] - a[0])`: the lines carrying any fixed count appear in
the sorted output in their original relative order. -/
lemma sortByCountDesc_stable (c : Nat) (l : List (Nat × String)) :
    (sortByCountDesc l).filter (fun z => z.1 == c)
      = l.filter fun z => z.1 == c := by
  rw [filter_sortByCountDesc]
  refine @sortByCountDesc_of_const c _ fun z hz => ?_
  have hbeq := List.of_mem_filter hz
  rw [Nat.beq_eq_true_eq] at hbeq
  exact hbeq

lemma filter_of_map {α β : Type} (f : α → β) (p : β → Bool) (l : List α) :
    (l.map f).filter p = (l.filter fun a => p (f a)).map f := by
  induction l with
  | nil => rfl
  | cons a l ih =>
    rw [List.map_cons, List.filter_cons, List.filter_cons]
    cases hp : p (f a) with
    | false => rw [if_neg Bool.false_ne_true, if_neg Bool.false_ne_true]; exact ih
    | true => rw [if_pos rfl, if_pos rfl, List.map_cons, ih]

lemma jsTrim_empty_all_ws {s : String} (h : jsTrim s = "") :
    ∀ c ∈ s.toList, c.isWhitespace := by
  unfold jsTrim at h
  have hr : ((s.toList.dropWhile Char.isWhitespace).reverse.dropWhile Char.isWhitespace).reverse
      = [] := congrArg String.data h
  rw [List.reverse_eq_nil_iff, List.dropWhile_eq_nil_iff] at hr
  intro c hc
  rcases List.mem_append.mp
      ((List.takeWhile_append_dropWhile (p := Char.isWhitespace) (l := s.toList)) ▸ hc) with
    hmem | hmem
  · exact List.mem_takeWhile_imp hmem
  · exact hr c (List.mem_reverse.mpr hmem)

lemma parseCountMarkerAux_all_ws {l : List Char} (h : ∀ c ∈ l, c.isWhitespace) :
    ∀ acc, parseCountMarkerAux acc l = none := by
  induction l with
  | nil => intro acc; rfl
  | cons c rest ih =>
    intro acc
    have hc : c ≠ '[' := by
      intro he
      have := h c (by simp)
      rw [he] at this
      exact absurd this (by decide)
    rw [parseCountMarkerAux, markerDigitsAt, if_neg hc]
    exact ih (fun x hx => h x (List.mem_cons_of_mem _ hx)) _

lemma parseCountMarker_blank {line : String} (h : jsTrim line = "") :
    parseCountMarker line = none := by
  unfold parseCountMarker
  rw [parseCountMarkerAux_all_ws (jsTrim_empty_all_ws h) []]
  rfl

lemma toList_append (a b : String) : (a ++ b).toList = a.toList ++ b.toList := rfl

lemma startsWith_zero_tab (line : String) : jsStartsWith ("0\t" ++ line) "0\t" = true := by
  simp [jsStartsWith, toList_append]

lemma tagged_filter_eq (lines : List String) :
    ((lines.filterMap fun line =>
        if jsTrim line = "" then none
        else
          match parseCountMarker line with
          | some p => some (digitsToNat p.1.toList, p.1 ++ "\t" ++ p.2)
          | none => some ((0 : Nat), "0\t" ++ line)).filter
        fun t => !(jsStartsWith t.2 "0\t"))
      = ((lines.map fun line =>
          match parseCountMarker line with
          | some p => (digitsToNat p.1.toList, p.1 ++ "\t" ++ p.2)
          | none => ((0 : Nat), "0\t" ++ line)).filter
        fun t => !(jsStartsWith t.2 "0\t")) := by
  induction lines with
  | nil => rfl
  | cons line ls ih =>
    rw [List.filterMap_cons, List.map_cons]
    by_cases hb : jsTrim line = ""
    · rw [if_pos hb, parseCountMarker_blank hb, List.filter_cons]
      simp only [startsWith_zero_tab, Bool.not_true, Bool.false_eq_true, if_false]
      exact ih
    · rw [if_neg hb]
      cases hm : parseCountMarker line with
      | some p =>
        simp only [List.filter_cons]
        cases hk : (!(jsStartsWith (digitsToNat p.1.toList, p.1 ++ "\t" ++ p.2).2 "0\t")) with
        | false => rw [if_neg Bool.false_ne_true, if_neg Bool.false_ne_true]; exact ih
        | true => rw [if_pos rfl, if_pos rfl, ih]
      | none =>
        simp only [List.filter_cons]
        cases hk : (!(jsStartsWith ((0 : Nat), "0\t" ++ line).2 "0\t")) with
        | false => rw [if_neg Bool.false_ne_true, if_neg Bool.false_ne_true]; exact ih
        | true => rw [if_pos rfl, if_pos rfl, ih]

/-- C8 (amended): the tabular counts re-parse rewrites each marker-carrying
line as `{digit run}\t{line without the marker}` (the digit run is kept
verbatim, so `00` stays `00`), tags unmarked lines with `0`, stably sorts by
the numeric value of the digit run in descending order, prepends the header
and drops exactly the body lines starting `0\t` — i.e. unmarked lines and
lines whose digit run is literally `0`; a zero count written with leading
zeros is retained. -/
theorem claim8_amended_tabular_reparse (bibliography : String) :
    formatBibliographyWithCountsLines bibliography
      = bibliographyWithCountsAmended bibliography := by
  simp only [formatBibliographyWithCountsLines, bibliographyWithCountsAmended]
  congr 1
  congr 1
  rw [filter_of_map, filter_of_map, filter_sortByCountDesc, filter_sortByCountDesc]
  exact congrArg (List.map fun p => p.2)
    (congrArg sortByCountDesc (tagged_filter_eq (splitNl bibliography)))

/-- C8 counterexample: the rendered line `[00 citations] A.` carries a marker
with count `N = 0`, yet the code rewrites it as `00\tA.` (not `0\tA.`) and
keeps it in the body, because the drop test is the literal string test
`startsWith('0\t')` on the verbatim digit run, not a numeric test. -/
theorem claim8_counterexample :
    parseCountMarker "[00 citations] A." = some ("00", "A.") ∧
    digitsToNat "00".toList = 0 ∧
    formatBibliographyWithCountsLines "[00 citations] A."
      = "cite_count\treference\n00\tA." ∧
    "cite_count\treference\n00\tA." ≠ "cite_count\treference" := by decide

lemma formatWithCitationJs_fails {render : Option (List Item → String → Option String)}
    (hfail : ∀ f, render = some f → ∀ x y, f x y = none)
    {cs : List Item} (hne : ¬cs.length = 0) (fmt : String) :
    formatWithCitationJs render cs fmt = none := by
  cases render with
  | none => rfl
  | some f =>
    simp only [formatWithCitationJs]
    rw [if_neg hne]
    split
    · rw [hfail f rfl (addCountsToTitle cs) "bibliography"]
    · exact hfail f rfl _ fmt

/-- C9 (amended): when the external rendering capability is absent or throws
on every call, the `format` operation never raises — it returns a result for
every non-empty format name.  On a cache miss with a non-empty citation list
the result is the `formatFallback` rendering, and for the `bibliography`
format that fallback is the numbered `{i}. {Author}. {Title}.` listing in
input order.  (The other renderer-backed formats — `bibtex`, `ris`,
`bibliography-with-counts` — fall back to the JSON serialisation of the
records instead, see the counterexample.) -/
theorem claim9_degraded_format_never_raises
    (render : Option (List Item → String → Option String))
    (stringify : List Item → String) (st : FormatterState) (fmt : String)
    (cs : List Item)
    (hfail : ∀ f, render = some f → ∀ x y, f x y = none) (hfmt : fmt ≠ "") :
    ∃ out st', formatOutput render stringify st fmt cs = .ok (out, st') ∧
      (cacheGet st.cache (generateCacheKey stringify cs fmt) = none → ¬cs.length = 0 →
        out = formatFallback stringify cs fmt) ∧
      (cacheGet st.cache (generateCacheKey stringify cs fmt) = none → ¬cs.length = 0 →
        fmt = "bibliography" → out = numberedAuthorTitleListing cs) := by
  simp only [formatOutput]
  cases hc : cacheGet st.cache (generateCacheKey stringify cs fmt) with
  | some cached =>
    exact ⟨cached, st, rfl, fun h => Option.noConfusion h, fun h => Option.noConfusion h⟩
  | none =>
    rw [if_neg hfmt]
    by_cases hlen : cs.length = 0
    · rw [if_pos hlen]
      exact ⟨"", st, rfl, fun _ h => absurd hlen h, fun _ h => absurd hlen h⟩
    · rw [if_neg hlen]
      rw [formatWithCitationJs_fails hfail hlen fmt]
      refine ⟨formatFallback stringify cs fmt, _, rfl, fun _ _ => rfl, fun _ _ hbib => ?_⟩
      subst hbib
      unfold formatFallback numberedAuthorTitleListing
      rw [if_neg hlen, if_neg (by decide), if_pos rfl]

/-- C9 counterexample: with the rendering capability absent, the `bibtex`
format — one of the formats the spec groups with the bibliography-style,
renderer-delegating formats — falls back to the JSON serialisation of the
records (`JSON.stringify(citations, null, 2)`, here the external serialiser
returning `"STR"`), not to the numbered `{i}. {Author}. {Title}.` listing
(which for this record would be `1. F, G. T.`). -/
theorem claim9_counterexample :
    formatOutput none (fun _ => "STR") ⟨[]⟩ "bibtex"
        [{ title := some "T", author := some [("F", "G")] }]
      = .ok ("STR", ⟨[("bibtex_STR_\x7b\x7d", "STR")]⟩) ∧
    formatFallback (fun _ => "STR")
        [{ title := some "T", author := some [("F", "G")] }] "bibliography"
      = "1. F, G. T." ∧
    "STR" ≠ "1. F, G. T." := by
  refine ⟨by rfl, by rfl, by decide⟩

/-- Concrete instance of C9: renderer absent, `bibliography` format, single
record — the operation succeeds and yields the numbered fallback line. -/
theorem claim9_witness :
    ∃ out st', formatOutput none (fun _ => "S") ⟨[]⟩ "bibliography"
        [{ title := some "T" }] = .ok (out, st') ∧ out = "1. Unknown Author. T." := by
  obtain ⟨out, st', hok, hfb, hnum⟩ := claim9_degraded_format_never_raises none (fun _ => "S")
    ⟨[]⟩ "bibliography" [{ title := some "T" }] (fun f h => nomatch h) (by decide)
  refine ⟨out, st', hok, ?_⟩
  rw [hnum rfl (by decide) rfl]
  rfl

/-- C1 counterexample: a single entry with an identifier but no `itemData`
forms one cluster with `occurrenceCount = 1` inside `performDeduplication`,
but `deduplicateCitations` itself drops the null-canonical cluster
(`.filter(entry => entry.item !== null)`), so the deduplication output is
empty: the cluster is not retained there, and the sum of `occurrenceCount`
over the deduplication output is `0`, not the input length `1`.  The
exclusion happens inside the deduplication operation, before the metadata
projection (`extractMetadata`) ever runs. -/
theorem claim1_counterexample :
    ((performDeduplication (normalizeUris (mkDedupArray [(⟨["u1"], none⟩ : Cite Item)]))).map
        (fun e => e.count)) = [1] ∧
    deduplicateCitations [(⟨["u1"], none⟩ : Cite Item)] = [] ∧
    ((deduplicateCitations [(⟨["u1"], none⟩ : Cite Item)]).map (fun r => r.count)).sum = 0 ∧
    (0 : Nat) ≠ [(⟨["u1"], none⟩ : Cite Item)].length := by
  refine ⟨by decide, by decide, by decide, by decide⟩

/-- C3 counterexample: two entries sharing `u1`, the first with null
`itemData` and the second carrying `{title: "X"}`.  The claim predicts the
canonical record `{title: "X"}` (earliest member with non-null `itemData`);
the code takes the earliest member's `itemData` unconditionally, so the
cluster's canonical record is null and `deduplicateCitations` drops the
cluster entirely. -/
theorem claim3_counterexample :
    ((performDeduplication (normalizeUris (mkDedupArray
        [(⟨["u1"], none⟩ : Cite Item), ⟨["u1"], some { title := some "X" }⟩]))).map
        (fun e => (e.item, e.count, e.indices))) = [(none, 2, some [0, 1])] ∧
    (⟨["u1"], some { title := some "X" }⟩ : Cite Item).itemData ≠ none ∧
    deduplicateCitations
        [(⟨["u1"], none⟩ : Cite Item), ⟨["u1"], some { title := some "X" }⟩] = [] := by
  refine ⟨by decide, by decide, by decide⟩

/-- C4 counterexample: one already-deduplicated record, count-annotated with
count 1 (`note = "Times cited: 1"`), identifier sets trivially pairwise
disjoint.  Re-running `deduplicateCitations` does not reproduce the record
unchanged: `addCiteCountToItem` prepends a second `Times cited: 1` line to
the note. -/
theorem claim4_counterexample :
    deduplicateCitations [(⟨["u1"], some { note := some "Times cited: 1" }⟩ : Cite Item)]
      = [{ itemData := { note := some "Times cited: 1\nTimes cited: 1" },
           uris := ["u1"], count := 1, indices := [0] }] ∧
    ({ note := some "Times cited: 1\nTimes cited: 1" } : Item)
      ≠ { note := some "Times cited: 1" } := by
  refine ⟨by decide, by decide⟩

lemma pushNewUris_ext {ι : Type} (ms : List (DedupEntry ι)) :
    ∀ cur, ∃ t, pushNewUris cur ms = cur ++ t ∧ ∀ v ∈ t, ¬v ∈ cur := by
  induction ms with
  | nil => intro cur; exact ⟨[], by simp [pushNewUris], by simp⟩
  | cons m ms ih =>
    intro cur
    have step : pushNewUris cur (m :: ms)
        = pushNewUris (cur ++ m.uris.filter fun u => !cur.contains u) ms := rfl
    obtain ⟨t2, ht2, ht2n⟩ := ih (cur ++ m.uris.filter fun u => !cur.contains u)
    refine ⟨(m.uris.filter fun u => !cur.contains u) ++ t2, ?_, ?_⟩
    · rw [step, ht2, List.append_assoc]
    · intro v hv
      rcases List.mem_append.mp hv with hv | hv
      · have := List.of_mem_filter hv
        simpa using this
      · intro hvc
        exact ht2n v hv (List.mem_append.mpr (Or.inl hvc))

lemma sub_pushNewUris {ι : Type} (ms : List (DedupEntry ι)) :
    ∀ cur, cur ⊆ pushNewUris cur ms := by
  intro cur
  obtain ⟨t, ht, -⟩ := pushNewUris_ext ms cur
  rw [ht]
  exact List.subset_append_left _ _

lemma mem_pushNewUris_of_mem {ι : Type} (ms : List (DedupEntry ι)) :
    ∀ cur m, m ∈ ms → ∀ v ∈ m.uris, v ∈ pushNewUris cur ms := by
  induction ms with
  | nil => intro cur m hm; exact absurd hm (by simp)
  | cons m0 ms ih =>
    intro cur m hm v hv
    have step : pushNewUris cur (m0 :: ms)
        = pushNewUris (cur ++ m0.uris.filter fun u => !cur.contains u) ms := rfl
    rcases List.mem_cons.mp hm with hm | hm
    · subst hm
      rw [step]
      refine sub_pushNewUris ms _ ?_
      by_cases hvc : v ∈ cur
      · exact List.mem_append.mpr (Or.inl hvc)
      · refine List.mem_append.mpr (Or.inr (List.mem_filter.mpr ⟨hv, ?_⟩))
        simpa using hvc
    · rw [step]
      exact ih _ m hm v hv

lemma mem_pushNewUris_cases {ι : Type} (ms : List (DedupEntry ι)) :
    ∀ cur v, v ∈ pushNewUris cur ms → v ∈ cur ∨ ∃ m ∈ ms, v ∈ m.uris := by
  induction ms with
  | nil => intro cur v hv; exact Or.inl hv
  | cons m0 ms ih =>
    intro cur v hv
    rcases ih _ v hv with hv' | ⟨m, hm, hvm⟩
    · rcases List.mem_append.mp hv' with hc | hf
      · exact Or.inl hc
      · exact Or.inr ⟨m0, by simp, List.mem_of_mem_filter hf⟩
    · exact Or.inr ⟨m, List.mem_cons_of_mem _ hm, hvm⟩

lemma contains_true_iff (l : List String) (u : String) : l.contains u = true ↔ u ∈ l := by
  simp

lemma uriTerm_mono {ι : Type} (A : List (DedupEntry ι)) {c c' : List String}
    (h : c ⊆ c') (k : Nat) : uriTerm A c' k ≤ uriTerm A c k := by
  unfold uriTerm
  by_cases hc : ((A.getD k default).uris.all fun u => c.contains u) = true
  · have hc' : ((A.getD k default).uris.all fun u => c'.contains u) = true := by
      rw [List.all_eq_true] at hc ⊢
      intro u hu
      exact (contains_true_iff _ _).mpr (h ((contains_true_iff _ _).mp (hc u hu)))
    rw [hc, hc']
  · rw [if_neg hc]
    split
    · exact Nat.zero_le _
    · exact Nat.le_refl _

lemma uriPotential_len_le {ι : Type} (A : List (DedupEntry ι)) (c : List String) :
    c.length ≤ uriPotential A c :=
  Nat.le_add_right _ _

lemma pushNewUris_potential {ι : Type} (A : List (DedupEntry ι))
    (ms : List (DedupEntry ι)) (hms : ∀ m ∈ ms, m ∈ A) :
    ∀ cur, uriPotential A (pushNewUris cur ms) ≤ uriPotential A cur := by
  induction ms with
  | nil => intro cur; exact Nat.le_refl _
  | cons m ms ih =>
    intro cur
    have step : pushNewUris cur (m :: ms)
        = pushNewUris (cur ++ m.uris.filter fun u => !cur.contains u) ms := rfl
    rw [step]
    have h1 := ih (fun x hx => hms x (List.mem_cons_of_mem _ hx))
      (cur ++ m.uris.filter fun u => !cur.contains u)
    refine Nat.le_trans h1 ?_
    set c1 := cur ++ m.uris.filter fun u => !cur.contains u with hc1
    by_cases hall : (m.uris.all fun u => cur.contains u) = true
    · have : c1 = cur := by
        rw [hc1]
        have : (m.uris.filter fun u => !cur.contains u) = [] := by
          rw [List.filter_eq_nil]
          intro u hu
          rw [List.all_eq_true] at hall
          simpa using hall u hu
        rw [this, List.append_nil]
      rw [this]
    · -- m still owes its length; its position's term drops to zero
      obtain ⟨⟨k0, hk0lt⟩, hk0⟩ := List.mem_iff_get.mp (hms m (by simp))
      have hgetd : A.getD k0 default = m := by
        rw [List.getD_eq_get A default hk0lt]
        exact hk0
      have hk0mem : k0 ∈ Finset.range A.length := Finset.mem_range.mpr hk0lt
      have hsub : cur ⊆ c1 := List.subset_append_left _ _
      have hterm_cur : uriTerm A cur k0 = m.uris.length := by
        unfold uriTerm
        rw [hgetd, if_neg hall]
      have hterm_c1 : uriTerm A c1 k0 = 0 := by
        unfold uriTerm
        rw [hgetd]
        have : (m.uris.all fun u => c1.contains u) = true := by
          rw [List.all_eq_true]
          intro u hu
          rw [contains_true_iff]
          by_cases huc : u ∈ cur
          · exact hsub huc
          · refine List.mem_append.mpr (Or.inr (List.mem_filter.mpr ⟨hu, ?_⟩))
            simpa using huc
        rw [this, if_pos rfl]
      have hlen : c1.length ≤ cur.length + m.uris.length := by
        rw [hc1, List.length_append]
        exact Nat.add_le_add_left (List.length_filter_le _ _) _
      have hsum : (∑ k in Finset.range A.length, uriTerm A c1 k) + m.uris.length
          ≤ ∑ k in Finset.range A.length, uriTerm A cur k := by
        rw [← Finset.sum_erase_add _ _ hk0mem, ← Finset.sum_erase_add _ _ hk0mem]
        rw [hterm_cur, hterm_c1, Nat.add_zero]
        refine Nat.add_le_add ?_ (Nat.le_refl _)
        exact Finset.sum_le_sum fun k _ => uriTerm_mono A hsub k
      unfold uriPotential
      omega

lemma sumUrisLen_eq_sum {ι : Type} (A : List (DedupEntry ι)) :
    sumUrisLen A = ∑ k in Finset.range A.length, (A.getD k default).uris.length := by
  unfold sumUrisLen
  induction A with
  | nil => simp
  | cons a l ih =>
    rw [List.map_cons, List.sum_cons, List.length_cons, Finset.sum_range_succ']
    simp only [List.getD_cons_succ, List.getD_cons_zero]
    rw [ih, Nat.add_comm]

lemma uriPotential_le_twice {ι : Type} (A : List (DedupEntry ι)) (i : Nat)
    (hi : i < A.length) :
    uriPotential A ((A.getD i default).uris) ≤ 2 * sumUrisLen A := by
  unfold uriPotential
  have h1 : (A.getD i default).uris.length ≤ sumUrisLen A := by
    rw [sumUrisLen_eq_sum]
    exact Finset.single_le_sum (f := fun k => (A.getD k default).uris.length)
      (fun k _ => Nat.zero_le _) (Finset.mem_range.mpr hi)
  have h2 : (∑ k in Finset.range A.length, uriTerm A ((A.getD i default).uris) k)
      ≤ sumUrisLen A := by
    rw [sumUrisLen_eq_sum]
    refine Finset.sum_le_sum fun k _ => ?_
    unfold uriTerm
    split
    · exact Nat.zero_le _
    · exact Nat.le_refl _
  omega

lemma getD_set_ne' {α : Type} [Inhabited α] (A : List α) (i k : Nat) (x : α)
    (h : i ≠ k) : (A.set i x).getD k default = A.getD k default := by
  rw [List.getD_eq_get?, List.getD_eq_get?]
  rw [List.get?_set_ne]
  exact h

lemma getD_set_self' {α : Type} [Inhabited α] (A : List α) (i : Nat) (x : α)
    (h : i < A.length) : (A.set i x).getD i default = x := by
  rw [List.getD_eq_get?, List.get?_set_eq_of_lt _ h]
  rfl

lemma uriPotential_set_congr {ι : Type} (A : List (DedupEntry ι)) (i : Nat)
    (x y : DedupEntry ι) (c : List String) (hi : i < A.length)
    (hx : ∀ u ∈ x.uris, u ∈ c) (hy : ∀ u ∈ y.uris, u ∈ c) :
    uriPotential (A.set i y) c = uriPotential (A.set i x) c := by
  unfold uriPotential
  congr 1
  rw [List.length_set, List.length_set]
  refine Finset.sum_congr rfl fun k hk => ?_
  by_cases hik : i = k
  · subst hik
    unfold uriTerm
    rw [getD_set_self' _ _ _ hi, getD_set_self' _ _ _ hi]
    have hax : (x.uris.all fun u => c.contains u) = true := by
      rw [List.all_eq_true]; intro u hu; exact (contains_true_iff _ _).mpr (hx u hu)
    have hay : (y.uris.all fun u => c.contains u) = true := by
      rw [List.all_eq_true]; intro u hu; exact (contains_true_iff _ _).mpr (hy u hu)
    rw [hax, hay, if_pos rfl, if_pos rfl]
  · unfold uriTerm
    rw [getD_set_ne' _ _ _ _ hik, getD_set_ne' _ _ _ _ hik]

lemma get_congr {α : Type} {l l' : List α} (h : l = l') {j : Nat} (hj : j < l.length) :
    l.get ⟨j, hj⟩ = l'.get ⟨j, h ▸ hj⟩ := by
  subst h
  rfl

lemma normalizeEntryStep_main {ι : Type} (A : List (DedupEntry ι)) (i : Nat)
    (hi : i < A.length) :
    ∀ fuel j cur,
      (∃ t, cur = (A.getD i default).uris ++ t ∧ ∀ v ∈ t, ¬v ∈ (A.getD i default).uris) →
      (∀ u ∈ cur, UriClosure A i u) →
      (∀ j' (hj' : j' < j), ∃ h2 : j' < cur.length, ∀ k, k < A.length → k ≠ i →
          cur.get ⟨j', h2⟩ ∈ (A.getD k default).uris →
          ∀ v ∈ (A.getD k default).uris, v ∈ cur) →
      j ≤ cur.length →
      uriPotential (A.set i { A.getD i default with uris := cur }) cur + 1 ≤ fuel + j →
      ∃ M, normalizeEntryStep (A.set i { A.getD i default with uris := cur }) i j fuel
          = A.set i { A.getD i default with uris := M }
        ∧ cur ⊆ M
        ∧ (∃ t0, M = (A.getD i default).uris ++ t0 ∧ ∀ v ∈ t0, ¬v ∈ (A.getD i default).uris)
        ∧ (∀ u ∈ M, UriClosure A i u)
        ∧ (∀ u ∈ M, ∀ k, k < A.length → k ≠ i →
            u ∈ (A.getD k default).uris → ∀ v ∈ (A.getD k default).uris, v ∈ M) := by
  intro fuel
  induction fuel with
  | zero =>
    intro j cur _ _ _ hj hfuel
    exfalso
    have := uriPotential_len_le (A.set i { A.getD i default with uris := cur }) cur
    omega
  | succ fuel ih =>
    intro j cur hpre hsound hproc hj hfuel
    have hil : i < (A.set i { A.getD i default with uris := cur }).length := by
      rw [List.length_set]; exact hi
    have hget : (A.set i { A.getD i default with uris := cur }).get? i
        = some { A.getD i default with uris := cur } := by
      rw [List.get?_set_eq_of_lt]
      exact hi
    rw [normalizeEntryStep, hget]
    dsimp only
    by_cases hlt : j < cur.length
    · rw [dif_pos hlt]
      set x := { A.getD i default with uris := cur } with hx
      set uri := cur.get ⟨j, hlt⟩ with huri
      set matching := (A.set i x).filter (fun it => it.uris.contains uri) with hmatching
      set newUris := pushNewUris cur matching with hnewUris
      obtain ⟨t', ht', ht'n⟩ := pushNewUris_ext matching cur
      have hcsub : cur ⊆ newUris := by rw [hnewUris, ht']; exact List.subset_append_left _ _
      have hrw : (A.set i x).set i { x with uris := newUris }
          = A.set i { A.getD i default with uris := newUris } := by
        rw [List.set_set]
      rw [hrw]
      -- hypotheses for the recursive call
      have hpre' : ∃ t, newUris = (A.getD i default).uris ++ t
          ∧ ∀ v ∈ t, ¬v ∈ (A.getD i default).uris := by
        obtain ⟨t, ht, htn⟩ := hpre
        refine ⟨t ++ t', ?_, ?_⟩
        · rw [hnewUris, ht', ht, List.append_assoc]
        · intro v hv
          rcases List.mem_append.mp hv with hv | hv
          · exact htn v hv
          · intro hvo
            refine ht'n v hv ?_
            rw [ht]
            exact List.mem_append.mpr (Or.inl hvo)
      have hmem_entry : ∀ m ∈ matching, m = x ∨
          ∃ k, k < A.length ∧ k ≠ i ∧ m = A.getD k default ∧ m.uris.contains uri := by
        intro m hm
        have hmf := List.mem_filter.mp hm
        obtain ⟨⟨k, hk⟩, hgetk⟩ := List.mem_iff_get.mp hmf.1
        by_cases hik : k = i
        · subst hik
          left
          rw [← hgetk]
          exact List.get_set_eq hk
        · right
          refine ⟨k, by simpa [List.length_set] using hk, hik, ?_, ?_⟩
          · rw [← hgetk]
            have hkA : k < A.length := by simpa [List.length_set] using hk
            have : (A.set i x).get ⟨k, hk⟩ = (A.set i x).getD k default := by
              rw [List.getD_eq_get?, List.get?_eq_get hk]
              rfl
            rw [this, getD_set_ne' _ _ _ _ (fun he => hik he.symm)]
          · rw [← hgetk] at hmf ⊢
            exact hmf.2
      have hsound' : ∀ u ∈ newUris, UriClosure A i u := by
        intro u hu
        rcases mem_pushNewUris_cases matching cur u hu with hu | ⟨m, hm, hum⟩
        · exact hsound u hu
        · rcases hmem_entry m hm with hme | ⟨k, hkA, hki, hme, hctn⟩
          · subst hme
            exact hsound u hum
          · subst hme
            have huri_m : uri ∈ (A.getD k default).uris := (contains_true_iff _ _).mp hctn
            have huri_cl : UriClosure A i uri := hsound uri (cur.get_mem _ _)
            exact UriClosure.step huri_cl hkA huri_m hum
      have hproc' : ∀ j' (hj' : j' < j + 1), ∃ h2 : j' < newUris.length,
          ∀ k, k < A.length → k ≠ i → newUris.get ⟨j', h2⟩ ∈ (A.getD k default).uris →
            ∀ v ∈ (A.getD k default).uris, v ∈ newUris := by
        intro j' hj'
        have hlen' : j' < newUris.length := by
          have h1 : cur.length ≤ newUris.length := by
            rw [hnewUris, ht', List.length_append]; omega
          omega
        refine ⟨hlen', ?_⟩
        have hcl : j' < cur.length := by omega
        have heqa : newUris = cur ++ t' := by rw [hnewUris, ht']
        have hval : newUris.get ⟨j', hlen'⟩ = cur.get ⟨j', hcl⟩ :=
          (get_congr heqa hlen').trans (List.get_append j' hcl)
        by_cases hjj : j' < j
        · obtain ⟨h2, hst⟩ := hproc j' hjj
          intro k hk hki hu v hv
          rw [hval] at hu
          exact hcsub (hst k hk hki hu v hv)
        · have hjeq : j' = j := by omega
          subst hjeq
          intro k hk hki hu v hv
          have huri_k : uri ∈ (A.getD k default).uris := by
            rw [hval] at hu
            exact hu
          have hmem_k : A.getD k default ∈ matching := by
            rw [hmatching]
            refine List.mem_filter.mpr ⟨?_, (contains_true_iff _ _).mpr huri_k⟩
            have hkA' : k < (A.set i x).length := by rw [List.length_set]; exact hk
            have : (A.set i x).get ⟨k, hkA'⟩ = A.getD k default := by
              have : (A.set i x).get ⟨k, hkA'⟩ = (A.set i x).getD k default := by
                rw [List.getD_eq_get?, List.get?_eq_get hkA']
                rfl
              rw [this, getD_set_ne' _ _ _ _ (fun he => hki he.symm)]
            rw [← this]
            exact (A.set i x).get_mem _ _
          exact mem_pushNewUris_of_mem matching cur _ hmem_k v hv
      have hj' : j + 1 ≤ newUris.length := by
        have h1 : cur.length ≤ newUris.length := by
          rw [hnewUris, ht', List.length_append]; omega
        omega
      have hfuel' : uriPotential (A.set i { A.getD i default with uris := newUris }) newUris + 1
          ≤ fuel + (j + 1) := by
        have he1 : uriPotential (A.set i { A.getD i default with uris := newUris }) newUris
            = uriPotential (A.set i x) newUris := by
          refine uriPotential_set_congr A i x _ newUris hi ?_ ?_
          · intro u hu; exact hcsub hu
          · intro u hu; exact hu
        have he2 : uriPotential (A.set i x) newUris ≤ uriPotential (A.set i x) cur := by
          rw [hnewUris]
          refine pushNewUris_potential (A.set i x) matching ?_ cur
          intro m hm
          exact (List.mem_filter.mp hm).1
        rw [he1]
        omega
      obtain ⟨M, hMeq, hMsub, hMpre, hMsound, hMclosed⟩ := ih (j + 1) newUris hpre' hsound' hproc' hj' hfuel'
      exact ⟨M, hMeq, fun v hv => hMsub (hcsub hv), hMpre, hMsound, hMclosed⟩
    · rw [dif_neg hlt]
      have hjeq : j = cur.length := by omega
      refine ⟨cur, rfl, fun v hv => hv, hpre, hsound, ?_⟩
      intro u hu k hk hki huk v hv
      obtain ⟨⟨j', hj'⟩, hget'⟩ := List.mem_iff_get.mp hu
      obtain ⟨h2, hst⟩ := hproc j' (by omega)
      refine hst k hk hki ?_ v hv
      rw [← hget'] at huk
      exact huk

lemma entryConn_symm {ι : Type} {A : List (DedupEntry ι)} {a b : Nat}
    (h : EntryConn A a b) : EntryConn A b a := by
  induction h with
  | refl => exact Relation.ReflTransGen.refl
  | tail hab hshare ih =>
    obtain ⟨u, h1, h2⟩ := hshare
    exact Relation.ReflTransGen.trans (Relation.ReflTransGen.single ⟨u, h2, h1⟩) ih

lemma entryUris_mem_lt {ι : Type} {A : List (DedupEntry ι)} {b : Nat} {u : String}
    (h : u ∈ entryUris A b) : b < A.length := by
  by_contra hb
  rw [entryUris, List.getD_eq_default _ _ (Nat.le_of_not_lt hb)] at h
  exact absurd h (by simp [default])

lemma uriClosure_reach {ι : Type} (A₀ B : List (DedupEntry ι)) (i : Nat)
    (ha : ∀ k u, u ∈ entryUris B k → entryReach A₀ k u) :
    ∀ u, UriClosure B i u → entryReach A₀ i u := by
  intro u hu
  induction hu with
  | base hu' => exact ha i _ hu'
  | step hcl hk hu' hv' ih =>
    rename_i u' v' k
    obtain ⟨b1, hconn1, hub1⟩ := ha k u' hu'
    obtain ⟨b2, hconn2, hub2⟩ := ih
    obtain ⟨b3, hconn3, hvb3⟩ := ha k v' hv'
    have hconn_ik : EntryConn A₀ i k := by
      refine Relation.ReflTransGen.trans hconn2 ?_
      refine Relation.ReflTransGen.trans (Relation.ReflTransGen.single ⟨u', hub2, hub1⟩) ?_
      exact entryConn_symm hconn1
    exact ⟨b3, Relation.ReflTransGen.trans hconn_ik hconn3, hvb3⟩

lemma reach_mem_closed {ι : Type} (A₀ B : List (DedupEntry ι)) (i : Nat)
    (M : List String) (hlen : B.length = A₀.length)
    (hb : ∀ k u, u ∈ entryUris A₀ k → u ∈ entryUris B k)
    (horig : ∀ u ∈ entryUris A₀ i, u ∈ M)
    (hclosed : ∀ u ∈ M, ∀ k, k < B.length → k ≠ i →
        u ∈ entryUris B k → ∀ v ∈ entryUris B k, v ∈ M) :
    ∀ u, entryReach A₀ i u → u ∈ M := by
  rintro u ⟨b, hconn, hub⟩
  suffices h : ∀ z, EntryConn A₀ i z → ∀ w ∈ entryUris A₀ z, w ∈ M from h b hconn u hub
  intro z hz
  induction hz with
  | refl => exact horig
  | tail hic hshare ih =>
    rename_i c z'
    obtain ⟨w, hwc, hwz⟩ := hshare
    intro w' hw'
    have hwM : w ∈ M := ih w hwc
    have hzlt : z' < A₀.length := entryUris_mem_lt hwz
    by_cases hzi : z' = i
    · subst hzi
      exact horig w' hw'
    · exact hclosed w hwM z' (by omega) hzi (hb z' w hwz) w' (hb z' w' hw')

lemma set_getD_self {α : Type} [Inhabited α] (B : List α) (i : Nat) (h : i < B.length) :
    B.set i (B.getD i default) = B := by
  apply List.ext_get?
  intro n
  by_cases hn : n = i
  · subst hn
    rw [List.get?_set_eq_of_lt _ h, List.getD_eq_get?, List.get?_eq_get h]
    rfl
  · rw [List.get?_set_ne]
    omega


lemma normInv_ha {ι : Type} {A₀ B : List (DedupEntry ι)} {i : Nat}
    (hi : i ≤ A₀.length)
    (hinv : NormInv A₀ B i) : ∀ k u, u ∈ entryUris B k → entryReach A₀ k u := by
  obtain ⟨hlen, h2, h3⟩ := hinv
  intro k u hu
  by_cases hk : k < i
  · have hkA : k < A₀.length := by omega
    exact ((h3 k hk hkA).2 u).mp hu
  · rw [entryUris, h2 k (by omega)] at hu
    exact ⟨k, Relation.ReflTransGen.refl, hu⟩

lemma normInv_hb {ι : Type} {A₀ B : List (DedupEntry ι)} {i : Nat}
    (hinv : NormInv A₀ B i) : ∀ k u, u ∈ entryUris A₀ k → u ∈ entryUris B k := by
  obtain ⟨hlen, h2, h3⟩ := hinv
  intro k u hu
  by_cases hk : k < i
  · have hkA : k < A₀.length := entryUris_mem_lt hu
    obtain ⟨⟨t, ht, -⟩, -⟩ := h3 k hk hkA
    rw [entryUris, ht]
    exact List.mem_append.mpr (Or.inl hu)
  · rw [entryUris, h2 k (by omega)]
    exact hu

lemma normalizeUris_fold {ι : Type} (A₀ : List (DedupEntry ι)) :
    ∀ i, i ≤ A₀.length →
      NormInv A₀ ((List.range i).foldl
        (fun a i' => normalizeEntryStep a i' 0 (2 * sumUrisLen a + 1)) A₀) i := by
  intro i
  induction i with
  | zero =>
    intro _
    exact ⟨rfl, fun k _ => rfl, fun k hk _ => absurd hk (by omega)⟩
  | succ i ih =>
    intro hi1
    have hinv := ih (by omega)
    set B := (List.range i).foldl
      (fun a i' => normalizeEntryStep a i' 0 (2 * sumUrisLen a + 1)) A₀ with hB
    rw [List.range_succ, List.foldl_append]
    simp only [List.foldl_cons, List.foldl_nil]
    obtain ⟨hlen, h2, h3⟩ := hinv
    have hiA : i < A₀.length := by omega
    have hiB : i < B.length := by omega
    have hBi : B.getD i default = A₀.getD i default := h2 i (Nat.le_refl i)
    -- rewrite B as B.set i {B[i] with uris := B[i].uris} to match the master lemma
    have hBset : B = B.set i { B.getD i default with uris := (B.getD i default).uris } :=
      (set_getD_self B i hiB).symm
    have hfuel0 : uriPotential
        (B.set i { B.getD i default with uris := (B.getD i default).uris })
        ((B.getD i default).uris) + 1 ≤ (2 * sumUrisLen B + 1) + 0 := by
      rw [← hBset]
      have := uriPotential_le_twice B i hiB
      omega
    obtain ⟨M, hMeq, hMsub, ⟨t0, hMt0, hMt0n⟩, hMsound, hMclosed⟩ :=
      normalizeEntryStep_main B i hiB (2 * sumUrisLen B + 1) 0 ((B.getD i default).uris)
        ⟨[], by simp [hBi], by simp⟩
        (fun u hu => UriClosure.base hu)
        (fun j' hj' => absurd hj' (by omega))
        (Nat.zero_le _)
        hfuel0
    rw [← hBset] at hMeq
    rw [hMeq]
    -- conclusions
    have hreach_iff : ∀ u, u ∈ M ↔ entryReach A₀ i u := by
      intro u
      constructor
      · intro hu
        exact uriClosure_reach A₀ B i (normInv_ha (by omega) ⟨hlen, h2, h3⟩) u (hMsound u hu)
      · refine reach_mem_closed A₀ B i M hlen (normInv_hb ⟨hlen, h2, h3⟩) ?_ ?_ u
        · intro w hw
          refine hMsub ?_
          rw [hBi]
          exact hw
        · intro w hw k hk hki hwk v hv
          exact hMclosed w hw k (by omega) hki hwk v hv
    refine ⟨by rw [List.length_set]; exact hlen, ?_, ?_⟩
    · intro k hk
      rw [getD_set_ne' _ _ _ _ (by omega)]
      exact h2 k (by omega)
    · intro k hk hkA
      by_cases hki : k = i
      · subst hki
        rw [getD_set_self' _ _ _ hiB, hBi]
        constructor
        · refine ⟨t0, ?_, ?_⟩
          · rw [hBi] at hMt0
            rw [hMt0]
          · intro v hv
            rw [hBi] at hMt0n
            exact hMt0n v hv
        · intro u
          exact hreach_iff u
      · rw [getD_set_ne' _ _ _ _ (fun he => hki he.symm)]
        exact h3 k (by omega) hkA

/-- Full characterisation of `normalizeUris`: every entry keeps its fields and
its original uris (as a prefix), extended by new uris none of which it already
had, and the resulting uri set of entry `k` is exactly the set of uris
reachable from `k` through shared identifiers in the input array. -/
lemma normalizeUris_spec {ι : Type} (A₀ : List (DedupEntry ι)) :
    (normalizeUris A₀).length = A₀.length ∧
    ∀ k, k < A₀.length →
      (∃ t, (normalizeUris A₀).getD k default
          = { A₀.getD k default with uris := (A₀.getD k default).uris ++ t }
        ∧ ∀ v ∈ t, ¬v ∈ (A₀.getD k default).uris) ∧
      (∀ u, u ∈ ((normalizeUris A₀).getD k default).uris ↔ entryReach A₀ k u) := by
  have h := normalizeUris_fold A₀ A₀.length (Nat.le_refl _)
  obtain ⟨hlen, h2, h3⟩ := h
  exact ⟨hlen, fun k hk => h3 k hk hk⟩

lemma mkDedupArray_get? {ι : Type} (cs : List (Cite ι)) (k : Nat) :
    (mkDedupArray cs).get? k = (cs.get? k).map fun c =>
      { item := c.itemData, uris := c.uris, count := 1, index := k, indices := none } := by
  unfold mkDedupArray
  rw [List.get?_map, List.get?_enum]
  cases cs.get? k <;> rfl

lemma mkDedupArray_length {ι : Type} (cs : List (Cite ι)) :
    (mkDedupArray cs).length = cs.length := by
  unfold mkDedupArray
  rw [List.length_map, List.enum_length]

lemma mkDedupArray_getD {ι : Type} (cs : List (Cite ι)) (k : Nat) (hk : k < cs.length) :
    (mkDedupArray cs).getD k default
      = { item := (cs.getD k ⟨[], none⟩).itemData, uris := (cs.getD k ⟨[], none⟩).uris,
          count := 1, index := k, indices := none } := by
  rw [List.getD_eq_get?, mkDedupArray_get?, List.getD_eq_get?, List.get?_eq_get hk]
  rfl

lemma filter_eq_range_filter {α : Type} [Inhabited α] (p : α → Bool) (A : List α) :
    A.filter p = ((List.range A.length).filter fun k => p (A.getD k default)).map
      fun k => A.getD k default := by
  induction A with
  | nil => rfl
  | cons a A ih =>
    rw [List.length_cons, List.range_succ_eq_map, List.filter_cons, List.filter_cons]
    simp only [List.getD_cons_zero]
    rw [filter_of_map]
    by_cases hp : p a = true
    · rw [if_pos hp, if_pos hp, List.map_cons, List.map_map]
      simp only [List.getD_cons_zero, Function.comp, List.getD_cons_succ]
      rw [ih]
      rfl
    · rw [if_neg hp, if_neg hp, List.map_map]
      simp only [Function.comp, List.getD_cons_succ]
      rw [ih]
      rfl

lemma list_range_filter_sum (n : Nat) (p : Nat → Bool) (f : Nat → Nat) :
    ((((List.range n).filter p).map f).sum : Nat)
      = ∑ k in Finset.range n, if p k then f k else 0 := by
  induction n with
  | zero => rfl
  | succ n ih =>
    rw [List.range_succ, List.filter_append, List.map_append, List.sum_append,
      Finset.sum_range_succ, ih, List.filter_cons]
    by_cases hp : p n = true
    · rw [if_pos hp, if_pos hp]
      simp
    · rw [if_neg hp, if_neg hp]
      simp

lemma mem_foldl_addDupIndex (idxs : List Nat) :
    ∀ dups m, m ∈ idxs.foldl addDupIndex dups ↔ m ∈ dups ∨ m ∈ idxs := by
  induction idxs with
  | nil => intro dups m; simp
  | cons j idxs ih =>
    intro dups m
    rw [List.foldl_cons, ih]
    unfold addDupIndex
    by_cases hj : dups.contains j = true
    · rw [if_pos hj]
      have hjm : j ∈ dups := by simpa using hj
      constructor
      · rintro (h | h)
        · exact Or.inl h
        · exact Or.inr (List.mem_cons_of_mem _ h)
      · rintro (h | h)
        · exact Or.inl h
        · rcases List.mem_cons.mp h with h | h
          · subst h; exact Or.inl hjm
          · exact Or.inr h
    · rw [if_neg hj]
      simp only [List.mem_append, List.mem_singleton, List.mem_cons]
      tauto

lemma headD_mem {l : List String} (h : l ≠ []) : l.headD "" ∈ l := by
  cases l with
  | nil => exact absurd rfl h
  | cons a l => exact List.mem_cons_self a l


lemma eqUriSetB_iff (xs ys : List String) :
    eqUriSetB xs ys = true ↔ ∀ u, u ∈ xs ↔ u ∈ ys := by
  unfold eqUriSetB
  rw [Bool.and_eq_true, List.all_eq_true, List.all_eq_true]
  constructor
  · rintro ⟨h1, h2⟩ u
    constructor
    · intro hu; exact (contains_true_iff _ _).mp (h1 u hu)
    · intro hu; exact (contains_true_iff _ _).mp (h2 u hu)
  · intro h
    constructor
    · intro u hu; exact (contains_true_iff _ _).mpr ((h u).mp hu)
    · intro u hu; exact (contains_true_iff _ _).mpr ((h u).mpr hu)



lemma mem_classPositions {B : List (DedupEntry Item)} {k q : Nat} :
    q ∈ classPositions B k ↔ q < B.length ∧ eqS B q k := by
  unfold classPositions
  rw [List.mem_filter, List.mem_range, eqUriSetB_iff]
  exact Iff.rfl

lemma eqS_refl (B : List (DedupEntry Item)) (p : Nat) : eqS B p p := fun _ => Iff.rfl

lemma eqS_symm {B : List (DedupEntry Item)} {p q : Nat} (h : eqS B p q) : eqS B q p :=
  fun u => (h u).symm

lemma eqS_trans {B : List (DedupEntry Item)} {p q r : Nat}
    (h1 : eqS B p q) (h2 : eqS B q r) : eqS B p r :=
  fun u => (h1 u).trans (h2 u)


lemma dedupInv_init (B : List (DedupEntry Item))
    (hcnt : ∀ k, k < B.length → (B.getD k default).count = 1) :
    DedupInv B 0 (B, []) := by
  refine ⟨rfl, fun k _ => ⟨rfl, rfl⟩, fun k _ => rfl, ?_, ?_, ?_⟩
  · intro m
    constructor
    · intro h; exact absurd h (by simp)
    · rintro ⟨-, -, r, hr, -⟩; omega
  · intro k hk; omega
  · have : ∀ k ∈ Finset.range B.length,
        (if k ∈ ([] : List Nat) then 0 else (B.getD k default).count) = 1 := by
      intro k hk
      rw [if_neg (by simp)]
      exact hcnt k (Finset.mem_range.mp hk)
    rw [Finset.sum_congr rfl this]
    simp

lemma dedupInv_step (B : List (DedupEntry Item))
    (hsat : ∀ p q, p < B.length → q < B.length →
      (∃ u, u ∈ entryUris B p ∧ u ∈ entryUris B q) → eqS B p q)
    (hcnt : ∀ k, k < B.length → (B.getD k default).count = 1)
    (hidx : ∀ k, k < B.length → (B.getD k default).index = k)
    (i : Nat) (hi : i < B.length) (st : List (DedupEntry Item) × List Nat)
    (hinv : DedupInv B i st) : DedupInv B (i + 1) (dedupStep st i) := by
  obtain ⟨K1, K2, K3, K4, K5, K6⟩ := hinv
  have hcurD : st.1.getD i default = B.getD i default := K3 i (Nat.le_refl i)
  have hiS : i < st.1.length := by omega
  have hget : st.1.get? i = some (B.getD i default) := by
    rw [List.get?_eq_get hiS, ← hcurD, List.getD_eq_get?, List.get?_eq_get hiS]
    rfl
  have hKeep : ∀ hyp : (∀ m, m ∈ st.2 ↔ m < B.length ∧ entryUris B m ≠ []
        ∧ ∃ r, r < i + 1 ∧ r < m ∧ eqS B r m) ∧
      (∀ k, k < i + 1 → k < B.length →
        ((entryUris B k = [] ∨ ∃ r, r < k ∧ eqS B r k) →
          st.1.getD k default = B.getD k default)
        ∧ (entryUris B k ≠ [] → (∀ r, r < k → ¬eqS B r k) →
            st.1.getD k default
              = { B.getD k default with
                  count := (classPositions B k).length,
                  indices := some (classPositions B k),
                  item := (B.getD k default).item.map
                    fun it => addCiteCountToItem it (classPositions B k).length })),
      DedupInv B (i + 1) st := by
    intro hyp
    exact ⟨K1, K2, fun k hk => K3 k (by omega), hyp.1, hyp.2, K6⟩
  simp only [dedupStep]
  rw [hget]
  dsimp only
  by_cases hdup : (B.getD i default).index ∈ st.2
  · rw [if_pos hdup]
    have hidup : i ∈ st.2 := by rwa [hidx i hi] at hdup
    obtain ⟨-, hne_i, r0, hr0i, hr0m, hr0⟩ := (K4 i).mp hidup
    refine hKeep ⟨?_, ?_⟩
    · intro m
      rw [K4 m]
      constructor
      · rintro ⟨h1, h2, r, hr, hrm, hre⟩
        exact ⟨h1, h2, r, by omega, hrm, hre⟩
      · rintro ⟨h1, h2, r, hr, hrm, hre⟩
        by_cases hri : r = i
        · subst hri
          exact ⟨h1, h2, r0, hr0i, by omega, eqS_trans hr0 hre⟩
        · exact ⟨h1, h2, r, by omega, hrm, hre⟩
    · intro k hk hkB
      by_cases hki : k = i
      · subst hki
        refine ⟨fun _ => hcurD, fun hne hno => ?_⟩
        exact absurd hr0 (hno r0 (by omega))
      · exact K5 k (by omega) hkB
  · rw [if_neg hdup]
    have hidup : ¬i ∈ st.2 := by rwa [hidx i hi] at hdup
    by_cases hempty : (B.getD i default).uris.length = 0
    · rw [if_pos hempty]
      have hne : entryUris B i = [] := by
        rw [entryUris, ← List.length_eq_zero]
        exact hempty
      refine hKeep ⟨?_, ?_⟩
      · intro m
        rw [K4 m]
        constructor
        · rintro ⟨h1, h2, r, hr, hrm, hre⟩
          exact ⟨h1, h2, r, by omega, hrm, hre⟩
        · rintro ⟨h1, h2, r, hr, hrm, hre⟩
          by_cases hri : r = i
          · subst hri
            exfalso
            obtain ⟨u, hu⟩ := List.exists_mem_of_ne_nil _ h2
            have : u ∈ entryUris B r := (hre u).mpr hu
            rw [hne] at this
            exact absurd this (by simp)
          · exact ⟨h1, h2, r, by omega, hrm, hre⟩
      · intro k hk hkB
        by_cases hki : k = i
        · subst hki
          exact ⟨fun _ => hcurD, fun hne' _ => absurd hne hne'⟩
        · exact K5 k (by omega) hkB
    · rw [if_neg hempty]
      have hneL : (B.getD i default).uris ≠ [] := by
        intro h
        rw [h] at hempty
        exact hempty rfl
      have hne : entryUris B i ≠ [] := hneL
      set uri0 := (B.getD i default).uris.headD "" with huri0
      have huri0_mem : uri0 ∈ entryUris B i := headD_mem hneL
      have hno_early : ∀ r, r < i → ¬eqS B r i := by
        intro r hr hre
        exact hidup ((K4 i).mpr ⟨hi, hne, r, hr, hr, hre⟩)
      have hclass_i : i ∈ classPositions B i := mem_classPositions.mpr ⟨hi, eqS_refl B i⟩
      have hclass_ge : ∀ q ∈ classPositions B i, i ≤ q := by
        intro q hq
        obtain ⟨hqn, hqe⟩ := mem_classPositions.mp hq
        by_contra hlt
        exact hno_early q (by omega) hqe
      have hclass_nodup : (classPositions B i).Nodup :=
        List.Nodup.filter _ (List.nodup_range _)
      have hclass_nodups : ∀ q ∈ classPositions B i, ¬q ∈ st.2 := by
        intro q hq hqd
        obtain ⟨hqn, hqe⟩ := mem_classPositions.mp hq
        obtain ⟨-, -, r, hri, hrq, hre⟩ := (K4 q).mp hqd
        exact hno_early r hri (eqS_trans hre hqe)
      have hmatch : st.1.filter
            (fun it => it.uris.contains uri0 && !st.2.contains it.index)
          = (classPositions B i).map fun q => st.1.getD q default := by
        rw [filter_eq_range_filter, K1]
        unfold classPositions
        rw [List.filter_congr ?_]
        intro k hk
        have hkn : k < B.length := List.mem_range.mp hk
        have hu : (st.1.getD k default).uris = entryUris B k := (K2 k hkn).1
        have hx : (st.1.getD k default).index = k := by
          rw [(K2 k hkn).2, hidx k hkn]
        show ((st.1.getD k default).uris.contains uri0
            && !st.2.contains (st.1.getD k default).index)
          = eqUriSetB (entryUris B k) (entryUris B i)
        rw [hu, hx]
        by_cases he : eqS B k i
        · have h1 : eqUriSetB (entryUris B k) (entryUris B i) = true :=
            (eqUriSetB_iff _ _).mpr he
          have h2 : (entryUris B k).contains uri0 = true :=
            (contains_true_iff _ _).mpr ((he uri0).mpr huri0_mem)
          have h3 : st.2.contains k = false := by
            have hknot : ¬k ∈ st.2 := hclass_nodups k (mem_classPositions.mpr ⟨hkn, he⟩)
            simpa using hknot
          rw [h1, h2, h3]
          rfl
        · have h1 : eqUriSetB (entryUris B k) (entryUris B i) = false := by
            cases hb : eqUriSetB (entryUris B k) (entryUris B i) with
            | false => rfl
            | true => exact absurd ((eqUriSetB_iff _ _).mp hb) he
          have h2 : (entryUris B k).contains uri0 = false := by
            cases hb : (entryUris B k).contains uri0 with
            | false => rfl
            | true =>
              exact absurd (hsat k i hkn hi ⟨uri0, (contains_true_iff _ _).mp hb, huri0_mem⟩) he
          rw [h1, h2]
          rfl
      have hcount : (st.1.filter
            (fun it => it.uris.contains uri0 && !st.2.contains it.index)).length
          = (classPositions B i).length := by
        rw [hmatch, List.length_map]
      have hmapidx : ∀ l : List Nat, (∀ q ∈ l, q < B.length) →
          ((l.map fun q => st.1.getD q default).map fun it => it.index) = l := by
        intro l hl
        rw [List.map_map]
        have : ∀ q ∈ l, ((fun it => it.index) ∘ fun q => st.1.getD q default) q = id q := by
          intro q hq
          show (st.1.getD q default).index = q
          rw [(K2 q (hl q hq)).2, hidx q (hl q hq)]
        rw [List.map_congr_left this, List.map_id]
      have hclass_lt : ∀ q ∈ classPositions B i, q < B.length := by
        intro q hq
        exact (mem_classPositions.mp hq).1
      have hinds : ((st.1.filter
            (fun it => it.uris.contains uri0 && !st.2.contains it.index)).map
            fun it => it.index)
          = classPositions B i := by
        rw [hmatch]
        exact hmapidx _ hclass_lt
      set Dlist := (classPositions B i).filter (fun q => decide (i < q)) with hDlist
      have habsorb : (st.1.filter
            (fun it => it.uris.contains uri0 && !st.2.contains it.index)).filter
            (fun m => (B.getD i default).index < m.index)
          = Dlist.map fun q => st.1.getD q default := by
        rw [hmatch, filter_of_map, hDlist]
        congr 1
        apply List.filter_congr
        intro q hq
        have hqn : q < B.length := hclass_lt q hq
        show decide ((B.getD i default).index < (st.1.getD q default).index) = decide (i < q)
        rw [(K2 q hqn).2, hidx q hqn, hidx i hi]
      have hdups' : ∀ m, m ∈ ((st.1.filter
              (fun it => it.uris.contains uri0 && !st.2.contains it.index)).filter
              (fun m => (B.getD i default).index < m.index)).foldl
            (fun d m => addDupIndex d m.index) st.2
          ↔ m ∈ st.2 ∨ (m ∈ classPositions B i ∧ i < m) := by
        intro m
        rw [habsorb, ← List.foldl_map, mem_foldl_addDupIndex]
        rw [hmapidx Dlist (fun q hq => hclass_lt q (List.mem_of_mem_filter hq))]
        rw [hDlist, List.mem_filter]
        simp only [decide_eq_true_eq]
      refine ⟨?_, ?_, ?_, ?_, ?_, ?_⟩
      · rw [List.length_set]
        exact K1
      · intro k hkn
        by_cases hki : k = i
        · subst hki
          unfold entryUris
          rw [getD_set_self' _ _ _ hiS]
          exact ⟨rfl, rfl⟩
        · unfold entryUris
          rw [getD_set_ne' _ _ _ _ (fun he => hki he.symm)]
          exact K2 k hkn
      · intro k hk
        rw [getD_set_ne' _ _ _ _ (by omega)]
        exact K3 k (by omega)
      · intro m
        rw [hdups' m]
        constructor
        · rintro (hm | ⟨hmc, hmi⟩)
          · obtain ⟨h1, h2, r, hr, hrm, hre⟩ := (K4 m).mp hm
            exact ⟨h1, h2, r, by omega, hrm, hre⟩
          · obtain ⟨hmn, hme⟩ := mem_classPositions.mp hmc
            refine ⟨hmn, ?_, i, by omega, hmi, eqS_symm hme⟩
            exact List.ne_nil_of_mem ((hme uri0).mpr huri0_mem)
        · rintro ⟨h1, h2, r, hr, hrm, hre⟩
          by_cases hri : r = i
          · subst hri
            exact Or.inr ⟨mem_classPositions.mpr ⟨h1, eqS_symm hre⟩, hrm⟩
          · exact Or.inl ((K4 m).mpr ⟨h1, h2, r, by omega, hrm, hre⟩)
      · intro k hk hkn
        by_cases hki : k = i
        · subst hki
          constructor
          · rintro (h | ⟨r, hr, hre⟩)
            · exact absurd h hne
            · exact absurd hre (hno_early r hr)
          · intro _ _
            rw [getD_set_self' _ _ _ hiS]
            rw [hcount, hinds]
        · rw [getD_set_ne' _ _ _ _ (fun he => hki he.symm)]
          exact K5 k (by omega) hkn
      · have hD_nodup : Dlist.Nodup := List.Nodup.filter _ hclass_nodup
        set Dset := Dlist.toFinset with hDset
        have hmem_Dset : ∀ q, q ∈ Dset ↔ (q ∈ classPositions B i ∧ i < q) := by
          intro q
          rw [hDset, List.mem_toFinset, hDlist, List.mem_filter]
          simp only [decide_eq_true_eq]
        have hiD : i ∉ Dset := by
          rw [hmem_Dset]
          rintro ⟨-, h⟩
          omega
        have hDsub : Dset ⊆ Finset.range B.length := by
          intro q hq
          exact Finset.mem_range.mpr (hclass_lt q ((hmem_Dset q).mp hq).1)
        have hSsub : insert i Dset ⊆ Finset.range B.length := by
          intro q hq
          rcases Finset.mem_insert.mp hq with hq | hq
          · subst hq; exact Finset.mem_range.mpr hi
          · exact hDsub hq
        have hcard : Dset.card = Dlist.length := List.toFinset_card_of_nodup hD_nodup
        have hclass_len : (classPositions B i).length = Dlist.length + 1 := by
          have hfe : Dlist = (classPositions B i).filter fun q => q != i := by
            rw [hDlist]
            apply List.filter_congr
            intro q hq
            have hge := hclass_ge q hq
            by_cases hqi : q = i
            · subst hqi
              simp
            · have h1 : decide (i < q) = true := decide_eq_true (by omega)
              have h2 : (q != i) = true := by simp [hqi]
              rw [h1, h2]
          have herase : (classPositions B i).erase i
              = (classPositions B i).filter fun q => q != i :=
            List.Nodup.erase_eq_filter hclass_nodup i
          have hlenpos : 0 < (classPositions B i).length := List.length_pos_of_mem hclass_i
          have hlen_erase : ((classPositions B i).erase i).length
              = (classPositions B i).length - 1 := List.length_erase_of_mem hclass_i
          rw [hfe, ← herase, hlen_erase]
          omega
        have hdisj : ∀ q ∈ classPositions B i, ¬q ∈ st.2 := hclass_nodups
        -- split both sums at the cluster
        rw [← Finset.sum_sdiff hSsub] at K6 ⊢
        rw [Finset.sum_insert hiD] at K6 ⊢
        have hrest : ∀ k ∈ Finset.range B.length \ insert i Dset,
            (if k ∈ ((st.1.filter
                (fun it => it.uris.contains uri0 && !st.2.contains it.index)).filter
                (fun m => (B.getD i default).index < m.index)).foldl
                  (fun d m => addDupIndex d m.index) st.2 then 0
             else ((st.1.set i
                { B.getD i default with
                  count := (st.1.filter
                    (fun it => it.uris.contains uri0 && !st.2.contains it.index)).length,
                  indices := some ((st.1.filter
                    (fun it => it.uris.contains uri0 && !st.2.contains it.index)).map
                      fun it => it.index),
                  item := (B.getD i default).item.map fun it => addCiteCountToItem it
                    (st.1.filter
                      (fun it => it.uris.contains uri0 && !st.2.contains it.index)).length
                }).getD k default).count)
            = (if k ∈ st.2 then 0 else (st.1.getD k default).count) := by
          intro k hk
          obtain ⟨hkr, hkS⟩ := Finset.mem_sdiff.mp hk
          have hknotin : k ≠ i ∧ k ∉ Dset := by
            constructor
            · intro h; exact hkS (Finset.mem_insert.mpr (Or.inl h))
            · intro h; exact hkS (Finset.mem_insert.mpr (Or.inr h))
          have hdeq : (k ∈ ((st.1.filter
              (fun it => it.uris.contains uri0 && !st.2.contains it.index)).filter
              (fun m => (B.getD i default).index < m.index)).foldl
                (fun d m => addDupIndex d m.index) st.2) ↔ k ∈ st.2 := by
            rw [hdups' k]
            constructor
            · rintro (h | ⟨hc, hlt⟩)
              · exact h
              · exact absurd ((hmem_Dset k).mpr ⟨hc, hlt⟩) hknotin.2
            · exact Or.inl
          rw [getD_set_ne' _ _ _ _ (fun he => hknotin.1 he.symm)]
          by_cases hkd : k ∈ st.2
          · rw [if_pos hkd, if_pos (hdeq.mpr hkd)]
          · rw [if_neg hkd, if_neg (fun h => hkd (hdeq.mp h))]
        have hFi' : (if i ∈ ((st.1.filter
              (fun it => it.uris.contains uri0 && !st.2.contains it.index)).filter
              (fun m => (B.getD i default).index < m.index)).foldl
                (fun d m => addDupIndex d m.index) st.2 then 0
            else ((st.1.set i
              { B.getD i default with
                count := (st.1.filter
                  (fun it => it.uris.contains uri0 && !st.2.contains it.index)).length,
                indices := some ((st.1.filter
                  (fun it => it.uris.contains uri0 && !st.2.contains it.index)).map
                    fun it => it.index),
                item := (B.getD i default).item.map fun it => addCiteCountToItem it
                  (st.1.filter
                    (fun it => it.uris.contains uri0 && !st.2.contains it.index)).length
              }).getD i default).count)
            = (classPositions B i).length := by
          have hnotin : ¬i ∈ ((st.1.filter
              (fun it => it.uris.contains uri0 && !st.2.contains it.index)).filter
              (fun m => (B.getD i default).index < m.index)).foldl
                (fun d m => addDupIndex d m.index) st.2 := by
            rw [hdups' i]
            rintro (h | ⟨-, h⟩)
            · exact hidup h
            · omega
          rw [if_neg hnotin, getD_set_self' _ _ _ hiS]
          exact hcount
        have hDset0 : (∑ q in Dset,
            (if q ∈ ((st.1.filter
                (fun it => it.uris.contains uri0 && !st.2.contains it.index)).filter
                (fun m => (B.getD i default).index < m.index)).foldl
                  (fun d m => addDupIndex d m.index) st.2 then 0
             else ((st.1.set i
                { B.getD i default with
                  count := (st.1.filter
                    (fun it => it.uris.contains uri0 && !st.2.contains it.index)).length,
                  indices := some ((st.1.filter
                    (fun it => it.uris.contains uri0 && !st.2.contains it.index)).map
                      fun it => it.index),
                  item := (B.getD i default).item.map fun it => addCiteCountToItem it
                    (st.1.filter
                      (fun it => it.uris.contains uri0 && !st.2.contains it.index)).length
                }).getD q default).count)) = 0 := by
          refine Finset.sum_eq_zero fun q hq => ?_
          rw [if_pos ?_]
          rw [hdups' q]
          exact Or.inr ((hmem_Dset q).mp hq)
        have hFi : (if i ∈ st.2 then 0 else (st.1.getD i default).count) = 1 := by
          rw [if_neg hidup, hcurD]
          exact hcnt i hi
        have hDsetF : (∑ q in Dset, if q ∈ st.2 then 0 else (st.1.getD q default).count)
            = Dset.card := by
          rw [Finset.sum_congr rfl ?_, Finset.sum_const, Nat.smul_one_eq_cast]
          · simp
          · intro q hq
            obtain ⟨hqc, hqlt⟩ := (hmem_Dset q).mp hq
            rw [if_neg (hdisj q hqc), K3 q (by omega)]
            exact hcnt q (hclass_lt q hqc)
        rw [Finset.sum_congr rfl hrest, hFi', hDset0]
        rw [hFi, hDsetF] at K6
        omega


lemma dedupInv_fold (B : List (DedupEntry Item))
    (hsat : ∀ p q, p < B.length → q < B.length →
      (∃ u, u ∈ entryUris B p ∧ u ∈ entryUris B q) → eqS B p q)
    (hcnt : ∀ k, k < B.length → (B.getD k default).count = 1)
    (hidx : ∀ k, k < B.length → (B.getD k default).index = k) :
    ∀ i, i ≤ B.length → DedupInv B i ((List.range i).foldl dedupStep (B, [])) := by
  intro i
  induction i with
  | zero => intro _; exact dedupInv_init B hcnt
  | succ i ih =>
    intro hi1
    rw [List.range_succ, List.foldl_append]
    simp only [List.foldl_cons, List.foldl_nil]
    exact dedupInv_step B hsat hcnt hidx i (by omega) _ (ih (by omega))

/-- Final characterisation of `performDeduplication` on a saturated,
count-1, position-indexed array: the output consists of one entry per
position that has no same-set classmate at a smaller position; for an entry
with uris it carries the full cluster (count, member positions, annotated
item), and entries without uris pass through untouched. -/
lemma performDeduplication_spec (B : List (DedupEntry Item))
    (hsat : ∀ p q, p < B.length → q < B.length →
      (∃ u, u ∈ entryUris B p ∧ u ∈ entryUris B q) → eqS B p q)
    (hcnt : ∀ k, k < B.length → (B.getD k default).count = 1)
    (hidx : ∀ k, k < B.length → (B.getD k default).index = k) :
    ∃ st : List (DedupEntry Item) × List Nat,
      (List.range B.length).foldl dedupStep (B, []) = st ∧
      performDeduplication B
        = ((List.range B.length).filter fun k => !st.2.contains k).map
            (fun k => st.1.getD k default) ∧
      DedupInv B B.length st := by
  refine ⟨(List.range B.length).foldl dedupStep (B, []), rfl, ?_,
    dedupInv_fold B hsat hcnt hidx B.length (Nat.le_refl _)⟩
  obtain ⟨K1, K2, K3, K4, K5, K6⟩ := dedupInv_fold B hsat hcnt hidx B.length (Nat.le_refl _)
  unfold performDeduplication
  rw [filter_eq_range_filter, K1]
  congr 1
  apply List.filter_congr
  intro k hk
  have hkn : k < B.length := List.mem_range.mp hk
  have hx : ((((List.range B.length).foldl dedupStep (B, [])).1.getD k default)).index = k := by
    rw [(K2 k hkn).2, hidx k hkn]
  rw [hx]

lemma entryUris_mkDedupArray (cs : List (Cite Item)) (k : Nat) :
    entryUris (mkDedupArray cs) k = urisAt cs k := by
  unfold entryUris urisAt
  by_cases hk : k < cs.length
  · rw [mkDedupArray_getD cs k hk, List.getD_eq_get?, List.get?_eq_get hk]
    rfl
  · rw [List.getD_eq_default _ _ (by rw [mkDedupArray_length]; omega)]
    rw [List.get?_eq_none.mpr (by omega)]
    rfl

lemma sharesUri_iff_entryShares (cs : List (Cite Item)) (a b : Nat) :
    sharesUri cs a b ↔ entryShares (mkDedupArray cs) a b := by
  unfold sharesUri entryShares
  rw [entryUris_mkDedupArray, entryUris_mkDedupArray]

lemma connEntries_iff_entryConn (cs : List (Cite Item)) (a b : Nat) :
    ConnEntries cs a b ↔ EntryConn (mkDedupArray cs) a b := by
  constructor
  · intro h
    induction h with
    | refl => exact Relation.ReflTransGen.refl
    | tail hab hshare ih =>
      exact Relation.ReflTransGen.tail ih ((sharesUri_iff_entryShares cs _ _).mp hshare)
  · intro h
    induction h with
    | refl => exact Relation.ReflTransGen.refl
    | tail hab hshare ih =>
      exact Relation.ReflTransGen.tail ih ((sharesUri_iff_entryShares cs _ _).mpr hshare)

lemma entryConn_of_empty {ι : Type} {A : List (DedupEntry ι)} {a b : Nat}
    (h : entryUris A a = []) (hc : EntryConn A a b) : b = a := by
  induction hc with
  | refl => rfl
  | tail hab hshare ih =>
    rename_i c b'
    obtain ⟨u, hu1, hu2⟩ := hshare
    rw [ih] at hu1
    rw [h] at hu1
    exact absurd hu1 (by simp)

lemma normB_uris (cs : List (Cite Item)) (k : Nat) :
    ∀ u, u ∈ entryUris (normalizeUris (mkDedupArray cs)) k
      ↔ entryReach (mkDedupArray cs) k u := by
  intro u
  obtain ⟨hlen, hspec⟩ := normalizeUris_spec (mkDedupArray cs)
  by_cases hk : k < cs.length
  · have hk' : k < (mkDedupArray cs).length := by rw [mkDedupArray_length]; exact hk
    exact (hspec k hk').2 u
  · have h1 : entryUris (normalizeUris (mkDedupArray cs)) k = [] := by
      unfold entryUris
      rw [List.getD_eq_default _ _ (by rw [hlen, mkDedupArray_length]; omega)]
      rfl
    rw [h1]
    have hA0 : entryUris (mkDedupArray cs) k = [] := by
      rw [entryUris_mkDedupArray]
      unfold urisAt
      rw [List.get?_eq_none.mpr (by omega)]
      rfl
    constructor
    · intro h; exact absurd h (by simp)
    · rintro ⟨b, hconn, hub⟩
      have hbk : b = k := entryConn_of_empty hA0 hconn
      subst hbk
      rw [hA0] at hub
      exact absurd hub (by simp)

lemma entryReach_congr {ι : Type} {A : List (DedupEntry ι)} {p q : Nat}
    (h : EntryConn A p q) : ∀ u, entryReach A p u ↔ entryReach A q u := by
  intro u
  constructor
  · rintro ⟨b, hc, hu⟩
    exact ⟨b, Relation.ReflTransGen.trans (entryConn_symm h) hc, hu⟩
  · rintro ⟨b, hc, hu⟩
    exact ⟨b, Relation.ReflTransGen.trans h hc, hu⟩

lemma normB_len (cs : List (Cite Item)) :
    (normalizeUris (mkDedupArray cs)).length = cs.length := by
  rw [(normalizeUris_spec (mkDedupArray cs)).1, mkDedupArray_length]

lemma normB_fields (cs : List (Cite Item)) (k : Nat) (hk : k < cs.length) :
    ((normalizeUris (mkDedupArray cs)).getD k default).count = 1
    ∧ ((normalizeUris (mkDedupArray cs)).getD k default).index = k
    ∧ ((normalizeUris (mkDedupArray cs)).getD k default).indices = none
    ∧ ((normalizeUris (mkDedupArray cs)).getD k default).item
        = (cs.getD k ⟨[], none⟩).itemData := by
  have hk' : k < (mkDedupArray cs).length := by rw [mkDedupArray_length]; exact hk
  obtain ⟨⟨t, ht, -⟩, -⟩ := (normalizeUris_spec (mkDedupArray cs)).2 k hk'
  rw [ht, mkDedupArray_getD cs k hk]
  exact ⟨rfl, rfl, rfl, rfl⟩

lemma normB_sat (cs : List (Cite Item)) :
    ∀ p q, p < (normalizeUris (mkDedupArray cs)).length →
      q < (normalizeUris (mkDedupArray cs)).length →
      (∃ u, u ∈ entryUris (normalizeUris (mkDedupArray cs)) p
          ∧ u ∈ entryUris (normalizeUris (mkDedupArray cs)) q) →
      eqS (normalizeUris (mkDedupArray cs)) p q := by
  rintro p q hp hq ⟨u, hup, huq⟩
  obtain ⟨a, hca, hua⟩ := (normB_uris cs p u).mp hup
  obtain ⟨b, hcb, hub⟩ := (normB_uris cs q u).mp huq
  have hconn : EntryConn (mkDedupArray cs) p q :=
    Relation.ReflTransGen.trans hca (Relation.ReflTransGen.trans
      (Relation.ReflTransGen.single ⟨u, hua, hub⟩) (entryConn_symm hcb))
  intro v
  rw [normB_uris, normB_uris]
  exact entryReach_congr hconn v

lemma normB_eqS_of_conn (cs : List (Cite Item)) {p q : Nat}
    (h : ConnEntries cs p q) : eqS (normalizeUris (mkDedupArray cs)) p q := by
  intro v
  rw [normB_uris, normB_uris]
  exact entryReach_congr ((connEntries_iff_entryConn cs p q).mp h) v

lemma normB_empty_iff (cs : List (Cite Item)) (k : Nat) :
    entryUris (normalizeUris (mkDedupArray cs)) k = [] ↔ urisAt cs k = [] := by
  constructor
  · intro h
    by_contra hne
    obtain ⟨u, hu⟩ := List.exists_mem_of_ne_nil _ hne
    have : u ∈ entryUris (normalizeUris (mkDedupArray cs)) k := by
      rw [normB_uris]
      exact ⟨k, Relation.ReflTransGen.refl, by rw [entryUris_mkDedupArray]; exact hu⟩
    rw [h] at this
    exact absurd this (by simp)
  · intro h
    rw [List.eq_nil_iff_forall_not_mem]
    intro u hu
    obtain ⟨b, hconn, hub⟩ := (normB_uris cs k u).mp hu
    have hbk : b = k := entryConn_of_empty (by rw [entryUris_mkDedupArray]; exact h) hconn
    subst hbk
    rw [entryUris_mkDedupArray, h] at hub
    exact absurd hub (by simp)

/-- C1 (amended): the sum of `occurrenceCount` over the clusters produced by
`performDeduplication` equals the number of input entries, and the clusters
whose canonical record is null are retained at that level; they are dropped
by `deduplicateCitations` itself (its `entry.item !== null` projection),
before the metadata projection `extractMetadata` ever runs. -/
theorem claim1_cluster_counts_sum (cs : List (Cite Item)) :
    ((performDeduplication (normalizeUris (mkDedupArray cs))).map fun e => e.count).sum
      = cs.length ∧
    deduplicateCitations cs
      = ((performDeduplication (normalizeUris (mkDedupArray cs))).filter
          fun e => e.item.isSome).filterMap fun e =>
            e.item.map fun it =>
              { itemData := it, uris := e.uris, count := e.count,
                indices := e.indices.getD [e.index] } := by
  constructor
  · obtain ⟨st, hst, hout, K1, K2, K3, K4, K5, K6⟩ :=
      performDeduplication_spec (normalizeUris (mkDedupArray cs))
        (normB_sat cs)
        (fun k hk => (normB_fields cs k (by rwa [normB_len] at hk)).1)
        (fun k hk => (normB_fields cs k (by rwa [normB_len] at hk)).2.1)
    rw [hout, List.map_map, list_range_filter_sum]
    have hsum : (∑ k in Finset.range (normalizeUris (mkDedupArray cs)).length,
        if (!st.2.contains k) = true
        then ((fun e => e.count) ∘ fun k => st.1.getD k default) k else 0)
      = ∑ k in Finset.range (normalizeUris (mkDedupArray cs)).length,
          if k ∈ st.2 then 0 else (st.1.getD k default).count := by
      refine Finset.sum_congr rfl fun k _ => ?_
      by_cases hkd : k ∈ st.2
      · rw [if_pos hkd, if_neg]
        simp [hkd]
      · rw [if_neg hkd, if_pos]
        · rfl
        · simp [hkd]
    rw [hsum, K6, normB_len]
  · unfold deduplicateCitations
    by_cases h0 : cs.length = 0
    · rw [if_pos h0]
      have hcs : cs = [] := List.length_eq_zero.mp h0
      subst hcs
      rfl
    · rw [if_neg h0]

lemma containsNat_true_iff (l : List Nat) (u : Nat) : l.contains u = true ↔ u ∈ l := by
  simp

lemma classPositions_congr {B : List (DedupEntry Item)} {r p : Nat}
    (h : eqS B r p) : classPositions B r = classPositions B p := by
  unfold classPositions
  refine List.filter_congr fun q hq => ?_
  rw [Bool.eq_iff_iff, eqUriSetB_iff, eqUriSetB_iff]
  exact ⟨fun h' => eqS_trans h' h, fun h' => eqS_trans h' (eqS_symm h)⟩

/-- C2: entries connected directly or transitively through shared identifiers
end up in the same deduplication cluster: some cluster produced by
`performDeduplication` lists both positions among its member indices. -/
theorem claim2_connected_entries_share_cluster (cs : List (Cite Item)) (p q : Nat)
    (hp : p < cs.length) (hq : q < cs.length) (hconn : ConnEntries cs p q) :
    ∃ e ∈ performDeduplication (normalizeUris (mkDedupArray cs)),
      p ∈ clusterMembers e ∧ q ∈ clusterMembers e := by
  obtain ⟨st, hst, hout, K1, K2, K3, K4, K5, K6⟩ :=
    performDeduplication_spec (normalizeUris (mkDedupArray cs))
      (normB_sat cs)
      (fun k hk => (normB_fields cs k (by rwa [normB_len] at hk)).1)
      (fun k hk => (normB_fields cs k (by rwa [normB_len] at hk)).2.1)
  set B := normalizeUris (mkDedupArray cs) with hB
  have hBn : B.length = cs.length := normB_len cs
  by_cases hpe : urisAt cs p = []
  · -- the whole connected component is the single position p
    have hqp : q = p := by
      have := entryConn_of_empty
        (A := mkDedupArray cs) (a := p)
        (by rw [entryUris_mkDedupArray]; exact hpe)
        ((connEntries_iff_entryConn cs p q).mp hconn)
      exact this
    subst hqp
    have hBpe : entryUris B q = [] := (normB_empty_iff cs q).mpr hpe
    have hnd : q ∉ st.2 := by
      intro hmem
      obtain ⟨-, hne, -⟩ := (K4 q).mp hmem
      exact hne hBpe
    refine ⟨st.1.getD q default, ?_, ?_, ?_⟩
    · rw [hout]
      exact List.mem_map.mpr ⟨q, List.mem_filter.mpr
        ⟨List.mem_range.mpr (by omega),
         by rw [Bool.not_eq_true']
            rw [← Bool.not_eq_true, containsNat_true_iff]
            exact hnd⟩, rfl⟩
    all_goals
    · have he : st.1.getD q default = B.getD q default :=
        (K5 q (by omega) (by omega)).1 (Or.inl hBpe)
      rw [he]
      unfold clusterMembers
      rw [(normB_fields cs q hp).2.2.1, (normB_fields cs q hp).2.1]
      exact List.mem_singleton.mpr rfl
  · -- nonempty component: its earliest member is the retained representative
    have hpB : p ∈ classPositions B p :=
      mem_classPositions.mpr ⟨by omega, eqS_refl B p⟩
    have hex : ∃ x, x ∈ classPositions B p := ⟨p, hpB⟩
    set r := Nat.find hex with hr
    have hrmem : r ∈ classPositions B p := Nat.find_spec hex
    obtain ⟨hrlt, hrp⟩ := mem_classPositions.mp hrmem
    have hnoearly : ∀ r', r' < r → ¬eqS B r' r := by
      intro r' hr' hcontra
      exact Nat.find_min hex hr'
        (mem_classPositions.mpr ⟨by omega, eqS_trans hcontra hrp⟩)
    have hBpne : entryUris B p ≠ [] := fun hc => hpe ((normB_empty_iff cs p).mp hc)
    have hBrne : entryUris B r ≠ [] := by
      intro hc
      obtain ⟨u, hu⟩ := List.exists_mem_of_ne_nil _ hBpne
      have : u ∈ entryUris B r := (hrp u).mpr hu
      rw [hc] at this
      exact absurd this (by simp)
    have hnd : r ∉ st.2 := by
      intro hmem
      obtain ⟨-, -, r', hr'1, hr'2, hr'3⟩ := (K4 r).mp hmem
      exact hnoearly r' hr'2 hr'3
    have he : st.1.getD r default
        = { B.getD r default with
            count := (classPositions B r).length,
            indices := some (classPositions B r),
            item := (B.getD r default).item.map
              fun it => addCiteCountToItem it (classPositions B r).length } :=
      (K5 r (by omega) (by omega)).2 hBrne hnoearly
    refine ⟨st.1.getD r default, ?_, ?_, ?_⟩
    · rw [hout]
      exact List.mem_map.mpr ⟨r, List.mem_filter.mpr
        ⟨List.mem_range.mpr (by omega),
         by rw [Bool.not_eq_true']
            rw [← Bool.not_eq_true, containsNat_true_iff]
            exact hnd⟩, rfl⟩
    · rw [he]
      unfold clusterMembers
      dsimp only
      rw [Option.getD_some, classPositions_congr hrp]
      exact hpB
    · rw [he]
      unfold clusterMembers
      dsimp only
      rw [Option.getD_some, classPositions_congr hrp]
      exact mem_classPositions.mpr ⟨by omega, eqS_symm (normB_eqS_of_conn cs hconn)⟩

/-- Witness for C2 at a concrete three-entry chain: the first and third entry
share no identifier but are linked through the middle entry, and one output
cluster contains both positions 0 and 2. -/
theorem claim2_witness :
    (0 : Nat) < ([⟨["u1"], none⟩, ⟨["u1", "u2"], none⟩, ⟨["u2"], none⟩]
        : List (Cite Item)).length ∧
    (2 : Nat) < ([⟨["u1"], none⟩, ⟨["u1", "u2"], none⟩, ⟨["u2"], none⟩]
        : List (Cite Item)).length ∧
    ConnEntries ([⟨["u1"], none⟩, ⟨["u1", "u2"], none⟩, ⟨["u2"], none⟩]
        : List (Cite Item)) 0 2 ∧
    ∃ e ∈ performDeduplication (normalizeUris (mkDedupArray
        ([⟨["u1"], none⟩, ⟨["u1", "u2"], none⟩, ⟨["u2"], none⟩]
          : List (Cite Item)))),
      0 ∈ clusterMembers e ∧ 2 ∈ clusterMembers e := by
  have h01 : sharesUri ([⟨["u1"], none⟩, ⟨["u1", "u2"], none⟩, ⟨["u2"], none⟩]
      : List (Cite Item)) 0 1 := ⟨"u1", by decide, by decide⟩
  have h12 : sharesUri ([⟨["u1"], none⟩, ⟨["u1", "u2"], none⟩, ⟨["u2"], none⟩]
      : List (Cite Item)) 1 2 := ⟨"u2", by decide, by decide⟩
  have hconn : ConnEntries ([⟨["u1"], none⟩, ⟨["u1", "u2"], none⟩, ⟨["u2"], none⟩]
      : List (Cite Item)) 0 2 :=
    Relation.ReflTransGen.tail (Relation.ReflTransGen.single h01) h12
  exact ⟨by decide, by decide, hconn,
    claim2_connected_entries_share_cluster _ 0 2 (by decide) (by decide) hconn⟩

/-- C3 (amended): the canonical record of every cluster produced by
`performDeduplication` is taken from the cluster member with the smallest
position — the entry's `index` field, which is minimal among the cluster's
member indices — and it is that first member's bibliographic record,
annotated with the cluster's citation count when the cluster has
identifiers and returned unannotated (even when null) when it has none. -/
theorem claim3_canonical_from_first_member (cs : List (Cite Item))
    (e : DedupEntry Item)
    (he : e ∈ performDeduplication (normalizeUris (mkDedupArray cs))) :
    e.index < cs.length ∧
    (∀ m ∈ clusterMembers e, e.index ≤ m) ∧
    (e.uris = [] → e.item = (cs.getD e.index ⟨[], none⟩).itemData) ∧
    (e.uris ≠ [] → e.item = ((cs.getD e.index ⟨[], none⟩).itemData).map
        fun it => addCiteCountToItem it e.count) := by
  obtain ⟨st, hst, hout, K1, K2, K3, K4, K5, K6⟩ :=
    performDeduplication_spec (normalizeUris (mkDedupArray cs))
      (normB_sat cs)
      (fun k hk => (normB_fields cs k (by rwa [normB_len] at hk)).1)
      (fun k hk => (normB_fields cs k (by rwa [normB_len] at hk)).2.1)
  set B := normalizeUris (mkDedupArray cs) with hB
  have hBn : B.length = cs.length := normB_len cs
  rw [hout] at he
  obtain ⟨k, hkf, hke⟩ := List.mem_map.mp he
  obtain ⟨hkr, hkc⟩ := List.mem_filter.mp hkf
  have hkn : k < cs.length := by have := List.mem_range.mp hkr; omega
  have hknd : k ∉ st.2 := by
    rw [Bool.not_eq_true', ← Bool.not_eq_true, containsNat_true_iff] at hkc
    exact hkc
  obtain ⟨hc1, hc2, hc3, hc4⟩ := normB_fields cs k hkn
  rw [← hB] at hc1 hc2 hc3 hc4
  subst hke
  by_cases hek : entryUris B k = []
  · have heq : st.1.getD k default = B.getD k default :=
      (K5 k (by omega) (by omega)).1 (Or.inl hek)
    rw [heq]
    refine ⟨by rw [hc2]; exact hkn, ?_, ?_, ?_⟩
    · intro m hm
      unfold clusterMembers at hm
      rw [hc3, hc2] at hm
      rw [Option.getD_none, List.mem_singleton] at hm
      rw [hc2]
      omega
    · intro hu
      rw [hc4, hc2]
    · intro hne
      exact absurd hek hne
  · have hnoearly : ∀ r, r < k → ¬eqS B r k := by
      intro r hr hcontra
      exact hknd ((K4 k).mpr ⟨by omega, hek, r, by omega, hr, hcontra⟩)
    have heq : st.1.getD k default
        = { B.getD k default with
            count := (classPositions B k).length,
            indices := some (classPositions B k),
            item := (B.getD k default).item.map
              fun it => addCiteCountToItem it (classPositions B k).length } :=
      (K5 k (by omega) (by omega)).2 hek hnoearly
    rw [heq]
    dsimp only
    refine ⟨by rw [hc2]; exact hkn, ?_, ?_, ?_⟩
    · intro m hm
      unfold clusterMembers at hm
      dsimp only at hm
      rw [Option.getD_some] at hm
      obtain ⟨hmn, hmk⟩ := mem_classPositions.mp hm
      rw [hc2]
      by_contra hlt
      exact hnoearly m (by omega) hmk
    · intro hcon
      exact absurd hcon hek
    · intro hu
      rw [hc4, hc2]

/-- Witness for C3 at a concrete two-entry duplicate pair with null records:
the single output cluster keeps index 0, covers members 0 and 1, and its
canonical record is the first entry's (null) record. -/
theorem claim3_witness :
    (⟨none, ["u"], 2, 0, some [0, 1]⟩ : DedupEntry Item)
        ∈ performDeduplication (normalizeUris (mkDedupArray
            ([⟨["u"], none⟩, ⟨["u"], none⟩] : List (Cite Item)))) ∧
    ((⟨none, ["u"], 2, 0, some [0, 1]⟩ : DedupEntry Item).index
        < ([⟨["u"], none⟩, ⟨["u"], none⟩] : List (Cite Item)).length ∧
     (∀ m ∈ clusterMembers (⟨none, ["u"], 2, 0, some [0, 1]⟩ : DedupEntry Item),
        (⟨none, ["u"], 2, 0, some [0, 1]⟩ : DedupEntry Item).index ≤ m) ∧
     ((⟨none, ["u"], 2, 0, some [0, 1]⟩ : DedupEntry Item).uris = [] →
        (⟨none, ["u"], 2, 0, some [0, 1]⟩ : DedupEntry Item).item
          = (([⟨["u"], none⟩, ⟨["u"], none⟩] : List (Cite Item)).getD
              (⟨none, ["u"], 2, 0, some [0, 1]⟩ : DedupEntry Item).index
              ⟨[], none⟩).itemData) ∧
     ((⟨none, ["u"], 2, 0, some [0, 1]⟩ : DedupEntry Item).uris ≠ [] →
        (⟨none, ["u"], 2, 0, some [0, 1]⟩ : DedupEntry Item).item
          = ((([⟨["u"], none⟩, ⟨["u"], none⟩] : List (Cite Item)).getD
              (⟨none, ["u"], 2, 0, some [0, 1]⟩ : DedupEntry Item).index
              ⟨[], none⟩).itemData).map
              fun it => addCiteCountToItem it
                (⟨none, ["u"], 2, 0, some [0, 1]⟩ : DedupEntry Item).count)) :=
  ⟨by decide, claim3_canonical_from_first_member _ _ (by decide)⟩

lemma urisAt_eq_getD {ι : Type} (cs : List (Cite ι)) (k : Nat) (hk : k < cs.length) :
    urisAt cs k = (cs.getD k ⟨[], none⟩).uris := by
  unfold urisAt
  rw [List.get?_eq_get hk, List.getD_eq_get?, List.get?_eq_get hk]
  rfl

lemma urisAt_nil_of_ge {ι : Type} (cs : List (Cite ι)) (k : Nat)
    (hk : ¬k < cs.length) : urisAt cs k = [] := by
  unfold urisAt
  rw [List.get?_eq_none.mpr (by omega)]
  rfl

lemma conn_eq_of_disj (cs : List (Cite Item))
    (hdisj : ∀ p ∈ List.range cs.length, ∀ q ∈ List.range cs.length, p ≠ q →
      ∀ u, u ∈ (cs.getD p ⟨[], none⟩).uris → u ∉ (cs.getD q ⟨[], none⟩).uris)
    {k b : Nat} (h : EntryConn (mkDedupArray cs) k b) : b = k := by
  induction h with
  | refl => rfl
  | tail hab hshare ih =>
    rename_i c b'
    obtain ⟨u, hu1, hu2⟩ := hshare
    rw [ih, entryUris_mkDedupArray] at hu1
    rw [entryUris_mkDedupArray] at hu2
    by_cases hk : k < cs.length
    · by_cases hb : b' < cs.length
      · by_contra hne
        rw [urisAt_eq_getD cs k hk] at hu1
        rw [urisAt_eq_getD cs b' hb] at hu2
        exact hdisj k (List.mem_range.mpr hk) b' (List.mem_range.mpr hb) (fun hc => hne hc.symm) u hu1 hu2
      · rw [urisAt_nil_of_ge cs b' hb] at hu2
        exact absurd hu2 (by simp)
    · rw [urisAt_nil_of_ge cs k hk] at hu1
      exact absurd hu1 (by simp)

lemma normB_getD_of_disj (cs : List (Cite Item))
    (hdisj : ∀ p ∈ List.range cs.length, ∀ q ∈ List.range cs.length, p ≠ q →
      ∀ u, u ∈ (cs.getD p ⟨[], none⟩).uris → u ∉ (cs.getD q ⟨[], none⟩).uris)
    (k : Nat) (hk : k < cs.length) :
    (normalizeUris (mkDedupArray cs)).getD k default
      = (mkDedupArray cs).getD k default := by
  have hk' : k < (mkDedupArray cs).length := by rw [mkDedupArray_length]; exact hk
  obtain ⟨⟨t, ht, htdisj⟩, hreach⟩ := (normalizeUris_spec (mkDedupArray cs)).2 k hk'
  have ht0 : t = [] := by
    rw [List.eq_nil_iff_forall_not_mem]
    intro v hv
    have hvB : v ∈ ((normalizeUris (mkDedupArray cs)).getD k default).uris := by
      rw [ht]
      exact List.mem_append.mpr (Or.inr hv)
    obtain ⟨b, hconn, hvb⟩ := (hreach v).mp hvB
    rw [conn_eq_of_disj cs hdisj hconn] at hvb
    exact htdisj v hv hvb
  rw [ht, ht0, List.append_nil]

lemma range_filter_singleton (n k : Nat) (hk : k < n) (p : Nat → Bool)
    (hp : ∀ q, q < n → (p q = true ↔ q = k)) :
    (List.range n).filter p = [k] := by
  induction n with
  | zero => omega
  | succ n ih =>
    rw [List.range_succ, List.filter_append]
    by_cases hkn : k < n
    · rw [ih hkn fun q hq => hp q (by omega)]
      have hpn : p n = false := by
        rw [Bool.eq_false_iff]
        intro hc
        have := (hp n (by omega)).mp hc
        omega
      simp [hpn]
    · have hke : k = n := by omega
      subst hke
      have h1 : (List.range k).filter p = [] := by
        rw [List.filter_eq_nil]
        intro q hq
        rw [Bool.not_eq_true, Bool.eq_false_iff]
        intro hc
        have := (hp q (by have := List.mem_range.mp hq; omega)).mp hc
        have := List.mem_range.mp hq
        omega
      have h2 : p k = true := (hp k (by omega)).mpr rfl
      rw [h1]
      simp [h2]

lemma filterMap_eq_map_of {α β : Type} (l : List α) (h : α → Option β) (g : α → β)
    (hx : ∀ x ∈ l, h x = some (g x)) : l.filterMap h = l.map g := by
  induction l with
  | nil => rfl
  | cons a l ih =>
    rw [List.filterMap_cons, hx a (List.mem_cons_self a l), List.map_cons,
      ih fun x hxm => hx x (List.mem_cons_of_mem a hxm)]

/-- C4 (amended): when every entry has identifiers, no identifier is shared
between two entries, and every record is present, deduplication returns one
cluster per entry in input order, each carrying the original identifier list,
citation count 1, member list `[k]`, and the original record annotated with a
fresh `Times cited: 1` note — re-annotated even if the record already carried
such a note, since `addCiteCountToItem` always prepends. -/
theorem claim4_disjoint_entries_counted_once (cs : List (Cite Item))
    (hne : ∀ k, k < cs.length → (cs.getD k ⟨[], none⟩).uris ≠ [])
    (hitem : ∀ k, k < cs.length → ((cs.getD k ⟨[], none⟩).itemData).isSome = true)
    (hdisj : ∀ p ∈ List.range cs.length, ∀ q ∈ List.range cs.length, p ≠ q →
      ∀ u, u ∈ (cs.getD p ⟨[], none⟩).uris → u ∉ (cs.getD q ⟨[], none⟩).uris) :
    (deduplicateCitations cs).length = cs.length ∧
    ∀ k, k < cs.length → ∃ it, (cs.getD k ⟨[], none⟩).itemData = some it ∧
      (deduplicateCitations cs).get? k
        = some { itemData := addCiteCountToItem it 1,
                 uris := (cs.getD k ⟨[], none⟩).uris,
                 count := 1, indices := [k] } := by
  by_cases h0 : cs.length = 0
  · constructor
    · unfold deduplicateCitations
      rw [if_pos h0, h0]
      rfl
    · intro k hk
      omega
  · obtain ⟨st, hst, hout, K1, K2, K3, K4, K5, K6⟩ :=
      performDeduplication_spec (normalizeUris (mkDedupArray cs))
        (normB_sat cs)
        (fun k hk => (normB_fields cs k (by rwa [normB_len] at hk)).1)
        (fun k hk => (normB_fields cs k (by rwa [normB_len] at hk)).2.1)
    set B := normalizeUris (mkDedupArray cs) with hB
    have hBn : B.length = cs.length := normB_len cs
    have hA : ∀ k, k < cs.length → B.getD k default
        = { item := (cs.getD k ⟨[], none⟩).itemData,
            uris := (cs.getD k ⟨[], none⟩).uris,
            count := 1, index := k, indices := none } := by
      intro k hk
      rw [hB, normB_getD_of_disj cs hdisj k hk, mkDedupArray_getD cs k hk]
    have hBu : ∀ k, k < cs.length → entryUris B k = (cs.getD k ⟨[], none⟩).uris := by
      intro k hk
      unfold entryUris
      rw [hA k hk]
    have heqS : ∀ q k, q < cs.length → k < cs.length → eqS B q k → q = k := by
      intro q k hq hk he
      by_contra hqk
      obtain ⟨u, hu⟩ := List.exists_mem_of_ne_nil _ (hne k hk)
      have huk : u ∈ entryUris B k := by
        rw [hBu k hk]
        exact hu
      have huq : u ∈ entryUris B q := (he u).mpr huk
      rw [hBu q hq] at huq
      exact hdisj q (List.mem_range.mpr hq) k (List.mem_range.mpr hk) hqk u huq hu
    have hclass : ∀ k, k < cs.length → classPositions B k = [k] := by
      intro k hk
      unfold classPositions
      refine range_filter_singleton B.length k (by omega) _ fun q hq => ?_
      rw [eqUriSetB_iff]
      constructor
      · intro h
        exact heqS q k (by omega) hk h
      · intro h
        subst h
        exact eqS_refl B q
    have hnd : ∀ m, m ∉ st.2 := by
      intro m hm
      obtain ⟨hmn, hmne, r, hr1, hr2, hr3⟩ := (K4 m).mp hm
      have := heqS r m (by omega) (by omega) hr3
      omega
    have hfilter : (List.range B.length).filter (fun k => !st.2.contains k)
        = List.range B.length := by
      refine List.filter_eq_self.mpr fun a ha => ?_
      rw [Bool.not_eq_true']
      rw [← Bool.not_eq_true, containsNat_true_iff]
      exact hnd a
    have hentry : ∀ k, k < cs.length → st.1.getD k default
        = { item := ((cs.getD k ⟨[], none⟩).itemData).map
              fun it => addCiteCountToItem it 1,
            uris := (cs.getD k ⟨[], none⟩).uris, count := 1, index := k,
            indices := some [k] } := by
      intro k hk
      have hkne : entryUris B k ≠ [] := by
        rw [hBu k hk]
        exact hne k hk
      have hnoearly : ∀ r, r < k → ¬eqS B r k := by
        intro r hr hc
        have := heqS r k (by omega) hk hc
        omega
      have hrep := (K5 k (by omega) (by omega)).2 hkne hnoearly
      rw [hrep, hclass k hk, hA k hk]
      rfl
    have houtput : performDeduplication B
        = (List.range cs.length).map fun k => st.1.getD k default := by
      rw [hout, hfilter, hBn]
    have hdc : deduplicateCitations cs
        = ((performDeduplication B).filter (fun e => e.item.isSome)).filterMap
            (fun e => e.item.map fun it =>
              { itemData := it, uris := e.uris, count := e.count,
                indices := e.indices.getD [e.index] }) := by
      unfold deduplicateCitations
      rw [if_neg h0]
    have hfilter2 : (performDeduplication B).filter (fun e => e.item.isSome)
        = performDeduplication B := by
      refine List.filter_eq_self.mpr fun e he => ?_
      rw [houtput] at he
      obtain ⟨k, hkr, hke⟩ := List.mem_map.mp he
      have hk := List.mem_range.mp hkr
      rw [← hke, hentry k hk]
      dsimp only
      obtain ⟨it, hit⟩ := Option.isSome_iff_exists.mp (hitem k hk)
      rw [hit]
      rfl
    have hform : deduplicateCitations cs = (List.range cs.length).map fun k =>
        ({ itemData := addCiteCountToItem (((cs.getD k ⟨[], none⟩).itemData).getD default) 1,
           uris := (cs.getD k ⟨[], none⟩).uris, count := 1,
           indices := [k] } : DedupRecord) := by
      rw [hdc, hfilter2, houtput, List.filterMap_map]
      refine filterMap_eq_map_of _ _ _ fun k hkr => ?_
      have hk := List.mem_range.mp hkr
      obtain ⟨it, hit⟩ := Option.isSome_iff_exists.mp (hitem k hk)
      dsimp only [Function.comp]
      rw [hentry k hk]
      dsimp only
      rw [hit]
      rfl
    constructor
    · rw [hform, List.length_map, List.length_range]
    · intro k hk
      obtain ⟨it, hit⟩ := Option.isSome_iff_exists.mp (hitem k hk)
      refine ⟨it, hit, ?_⟩
      rw [hform, List.get?_map, List.get?_range hk]
      simp only [Option.map_some']
      rw [hit]
      rfl

/-- Witness for C4 at two entries with distinct identifiers and present
records: both come back as singleton clusters with count 1 and a fresh
annotation. -/
theorem claim4_witness :
    (∀ k, k < ([⟨["a"], some {}⟩, ⟨["b"], some {}⟩] : List (Cite Item)).length →
      (([⟨["a"], some {}⟩, ⟨["b"], some {}⟩] : List (Cite Item)).getD k
        ⟨[], none⟩).uris ≠ []) ∧
    (∀ k, k < ([⟨["a"], some {}⟩, ⟨["b"], some {}⟩] : List (Cite Item)).length →
      ((([⟨["a"], some {}⟩, ⟨["b"], some {}⟩] : List (Cite Item)).getD k
        ⟨[], none⟩).itemData).isSome = true) ∧
    (∀ p ∈ List.range ([⟨["a"], some {}⟩, ⟨["b"], some {}⟩] : List (Cite Item)).length,
      ∀ q ∈ List.range ([⟨["a"], some {}⟩, ⟨["b"], some {}⟩] : List (Cite Item)).length, p ≠ q →
      ∀ u, u ∈ (([⟨["a"], some {}⟩, ⟨["b"], some {}⟩] : List (Cite Item)).getD p
          ⟨[], none⟩).uris →
        u ∉ (([⟨["a"], some {}⟩, ⟨["b"], some {}⟩] : List (Cite Item)).getD q
          ⟨[], none⟩).uris) ∧
    ((deduplicateCitations ([⟨["a"], some {}⟩, ⟨["b"], some {}⟩] : List (Cite Item))).length
        = ([⟨["a"], some {}⟩, ⟨["b"], some {}⟩] : List (Cite Item)).length ∧
      ∀ k, k < ([⟨["a"], some {}⟩, ⟨["b"], some {}⟩] : List (Cite Item)).length →
        ∃ it, (([⟨["a"], some {}⟩, ⟨["b"], some {}⟩] : List (Cite Item)).getD k
            ⟨[], none⟩).itemData = some it ∧
          (deduplicateCitations ([⟨["a"], some {}⟩, ⟨["b"], some {}⟩]
              : List (Cite Item))).get? k
            = some { itemData := addCiteCountToItem it 1,
                     uris := (([⟨["a"], some {}⟩, ⟨["b"], some {}⟩]
                        : List (Cite Item)).getD k ⟨[], none⟩).uris,
                     count := 1, indices := [k] }) :=
  ⟨by decide, by decide, by decide,
    claim4_disjoint_entries_counted_once _ (by decide) (by decide) (by decide)⟩

lemma normBgen_len {ι : Type} (cs : List (Cite ι)) :
    (normalizeUris (mkDedupArray cs)).length = cs.length := by
  rw [(normalizeUris_spec (mkDedupArray cs)).1, mkDedupArray_length]

lemma normBgen_fields {ι : Type} (cs : List (Cite ι)) (k : Nat) (hk : k < cs.length) :
    ((normalizeUris (mkDedupArray cs)).getD k default).count = 1
    ∧ ((normalizeUris (mkDedupArray cs)).getD k default).index = k
    ∧ ((normalizeUris (mkDedupArray cs)).getD k default).indices = none
    ∧ ((normalizeUris (mkDedupArray cs)).getD k default).item
        = (cs.getD k ⟨[], none⟩).itemData := by
  have hk' : k < (mkDedupArray cs).length := by rw [mkDedupArray_length]; exact hk
  obtain ⟨⟨t, ht, -⟩, -⟩ := (normalizeUris_spec (mkDedupArray cs)).2 k hk'
  rw [ht, mkDedupArray_getD cs k hk]
  exact ⟨rfl, rfl, rfl, rfl⟩

lemma subset_foldl_addDupIndex (l : List (DedupEntry Nat)) (d : List Nat) :
    ∀ m ∈ d, m ∈ l.foldl (fun d m => addDupIndex d m.index) d := by
  induction l generalizing d with
  | nil => intro m hm; exact hm
  | cons a l ih =>
    intro m hm
    rw [List.foldl_cons]
    refine ih _ m ?_
    unfold addDupIndex
    by_cases hc : d.contains a.index
    · rw [if_pos hc]; exact hm
    · rw [if_neg hc]; exact List.mem_append.mpr (Or.inl hm)

lemma storeRead_addCiteCount_ne (st : ItemStore) (r r' : Nat) (c : Nat)
    (h : r ≠ r') : storeRead (addCiteCountToStore st r c) r' = storeRead st r' := by
  unfold addCiteCountToStore
  cases hr : storeRead st r with
  | none => rfl
  | some it =>
    unfold storeRead
    rw [List.get?_set_ne]
    exact h

lemma length_addCiteCountToStore (st : ItemStore) (r c : Nat) :
    (addCiteCountToStore st r c).length = st.length := by
  unfold addCiteCountToStore
  cases hr : storeRead st r with
  | none => rfl
  | some it => exact List.length_set st r _


lemma dedupRefInv_step (B : List (DedupEntry Nat)) (store : ItemStore)
    (HBidx : ∀ k, k < B.length → (B.getD k default).index = k
      ∧ (B.getD k default).indices = none)
    (HBval : ∀ k r, k < B.length → (B.getD k default).item = some r →
      r < store.length)
    (HBdis : ∀ k1 k2 r, k1 < B.length → k2 < B.length →
      (B.getD k1 default).item = some r → (B.getD k2 default).item = some r →
      k1 = k2)
    (i : Nat) (hi : i < B.length)
    (σ : (List (DedupEntry Nat) × List Nat) × ItemStore)
    (hinv : DedupRefInv B store i σ) :
    DedupRefInv B store (i + 1) (dedupStepRef σ i) := by
  obtain ⟨J1, J2, J3, J4, J5, J6, J7⟩ := hinv
  have hcurD : σ.1.1.getD i default = B.getD i default := J3 i (Nat.le_refl i)
  have hiS : i < σ.1.1.length := by omega
  have hget : σ.1.1.get? i = some (B.getD i default) := by
    rw [List.get?_eq_get hiS, ← hcurD, List.getD_eq_get?, List.get?_eq_get hiS]
    rfl
  simp only [dedupStepRef]
  rw [hget]
  dsimp only
  by_cases hdup : (B.getD i default).index ∈ σ.1.2
  · rw [if_pos hdup]
    refine ⟨J1, J2, fun k hk => J3 k (by omega), J4, J5, J6, ?_⟩
    intro k hk hkB hne hnd
    by_cases hki : k = i
    · subst hki
      rw [(HBidx k hkB).1] at hdup
      exact absurd hdup hnd
    · exact J7 k (by omega) hkB hne hnd
  · rw [if_neg hdup]
    by_cases hempty : (B.getD i default).uris.length = 0
    · rw [if_pos hempty]
      refine ⟨J1, J2, fun k hk => J3 k (by omega), J4, J5, J6, ?_⟩
      intro k hk hkB hne hnd
      by_cases hki : k = i
      · subst hki
        rw [hcurD] at hne
        exact absurd (List.length_eq_zero.mp hempty) hne
      · exact J7 k (by omega) hkB hne hnd
    · rw [if_neg hempty]
      have hiAnnOld : ∀ k, k < B.length →
          (σ.1.1.getD k default).indices.isSome = true → k ≠ i := by
        intro k hk hann hki
        subst hki
        rw [hcurD, (HBidx k hk).2] at hann
        exact Bool.false_ne_true hann
      have hndD : ∀ m, m ∉ ((σ.1.1.filter fun it =>
            it.uris.contains ((B.getD i default).uris.headD "")
              && !σ.1.2.contains it.index).filter
            fun m => (B.getD i default).index < m.index).foldl
          (fun d m => addDupIndex d m.index) σ.1.2 → m ∉ σ.1.2 := by
        intro m hm hmem
        exact hm (subset_foldl_addDupIndex _ _ m hmem)
      cases hItem : (B.getD i default).item with
      | none =>
        refine ⟨?_, ?_, ?_, J4, ?_, ?_, ?_⟩
        · rw [List.length_set]
          exact J1
        · intro k hkn
          by_cases hki : k = i
          · subst hki
            rw [getD_set_self' _ _ _ hiS]
            exact ⟨hItem.symm ▸ rfl, by
              dsimp only
              exact (HBidx k hkn).1, rfl⟩
          · rw [getD_set_ne' _ _ _ _ (fun he => hki he.symm)]
            exact J2 k hkn
        · intro k hk
          rw [getD_set_ne' _ _ _ _ (by omega)]
          exact J3 k (by omega)
        · intro k hk hann r hr
          by_cases hki : k = i
          · subst hki
            rw [hItem] at hr
            exact absurd hr (by simp)
          · rw [getD_set_ne' _ _ _ _ (fun he => hki he.symm)] at hann ⊢
            exact J5 k hk hann r hr
        · intro r hno
          refine J6 r fun k hk hann => ?_
          have hki : k ≠ i := hiAnnOld k hk hann
          refine hno k hk ?_
          rw [getD_set_ne' _ _ _ _ (fun he => hki he.symm)]
          exact hann
        · intro k hk hkB hne hnd
          by_cases hki : k = i
          · subst hki
            rw [getD_set_self' _ _ _ hiS]
            rfl
          · rw [getD_set_ne' _ _ _ _ (fun he => hki he.symm)] at hne ⊢
            exact J7 k (by omega) hkB hne (hndD k hnd)
      | some r0 =>
        have hr0lt : r0 < store.length := HBval i r0 hi hItem
        have hpre : storeRead σ.2 r0 = storeRead store r0 := by
          refine J6 r0 fun k hk hann hkeq => ?_
          exact hiAnnOld k hk hann (HBdis k i r0 hk hi hkeq hItem)
        obtain ⟨it0, hit0⟩ : ∃ it0, storeRead store r0 = some it0 := by
          unfold storeRead
          rw [List.get?_eq_get hr0lt]
          exact ⟨_, rfl⟩
        have hr0ltσ : r0 < σ.2.length := by omega
        have hreadS : ∀ c, storeRead (addCiteCountToStore σ.2 r0 c) r0
            = some (addCiteCountToItem it0 c) := by
          intro c
          unfold addCiteCountToStore
          rw [hpre, hit0]
          unfold storeRead
          rw [List.get?_set_eq_of_lt _ hr0ltσ]
        refine ⟨?_, ?_, ?_, ?_, ?_, ?_, ?_⟩
        · rw [List.length_set]
          exact J1
        · intro k hkn
          by_cases hki : k = i
          · subst hki
            rw [getD_set_self' _ _ _ hiS]
            exact ⟨hItem.symm, (HBidx k hkn).1, rfl⟩
          · rw [getD_set_ne' _ _ _ _ (fun he => hki he.symm)]
            exact J2 k hkn
        · intro k hk
          rw [getD_set_ne' _ _ _ _ (by omega)]
          exact J3 k (by omega)
        · rw [length_addCiteCountToStore]
          exact J4
        · intro k hk hann r hr
          by_cases hki : k = i
          · subst hki
            rw [hItem] at hr
            have hrr0 : r = r0 := (Option.some_inj.mp hr).symm
            subst hrr0
            rw [getD_set_self' _ _ _ hiS]
            dsimp only
            rw [hreadS, hit0]
            rfl
          · have hki' : i ≠ k := fun he => hki he.symm
            rw [getD_set_ne' _ _ _ _ hki'] at hann ⊢
            have hrne : r0 ≠ r := by
              intro he
              subst he
              exact hki (HBdis k i r0 hk hi hr hItem)
            rw [storeRead_addCiteCount_ne _ _ _ _ hrne]
            exact J5 k hk hann r hr
        · intro r hno
          have hrne : r0 ≠ r := by
            intro he
            subst he
            exact hno i hi (by rw [getD_set_self' _ _ _ hiS]; rfl) hItem
          rw [storeRead_addCiteCount_ne _ _ _ _ hrne]
          refine J6 r fun k hk hann => ?_
          have hki : k ≠ i := hiAnnOld k hk hann
          refine hno k hk ?_
          rw [getD_set_ne' _ _ _ _ (fun he => hki he.symm)]
          exact hann
        · intro k hk hkB hne hnd
          by_cases hki : k = i
          · subst hki
            rw [getD_set_self' _ _ _ hiS]
            rfl
          · rw [getD_set_ne' _ _ _ _ (fun he => hki he.symm)] at hne ⊢
            exact J7 k (by omega) hkB hne (hndD k hnd)

lemma dedupRefInv_init (B : List (DedupEntry Nat)) (store : ItemStore)
    (HBidx : ∀ k, k < B.length → (B.getD k default).index = k
      ∧ (B.getD k default).indices = none) :
    DedupRefInv B store 0 ((B, []), store) := by
  refine ⟨rfl, fun k hk => ⟨rfl, (HBidx k hk).1, rfl⟩, fun k _ => rfl, rfl, ?_,
    fun r _ => rfl, fun k hk => by omega⟩
  intro k hk hann r hr
  rw [(HBidx k hk).2] at hann
  exact absurd hann Bool.false_ne_true

lemma dedupRefInv_fold (B : List (DedupEntry Nat)) (store : ItemStore)
    (HBidx : ∀ k, k < B.length → (B.getD k default).index = k
      ∧ (B.getD k default).indices = none)
    (HBval : ∀ k r, k < B.length → (B.getD k default).item = some r →
      r < store.length)
    (HBdis : ∀ k1 k2 r, k1 < B.length → k2 < B.length →
      (B.getD k1 default).item = some r → (B.getD k2 default).item = some r →
      k1 = k2) :
    ∀ n, n ≤ B.length →
      DedupRefInv B store n
        ((List.range n).foldl dedupStepRef ((B, []), store)) := by
  intro n
  induction n with
  | zero => intro _; exact dedupRefInv_init B store HBidx
  | succ n ih =>
    intro hn
    rw [List.range_succ, List.foldl_append, List.foldl_cons, List.foldl_nil]
    exact dedupRefInv_step B store HBidx HBval HBdis n (by omega) _ (ih (by omega))

/-- C10: deduplication mutates its input in place — in the heap-level model,
every returned cluster with identifiers exposes as `itemData` the very
reference held by some caller entry (aliased into the working array, not
copied), and after the operation the store cell behind that shared reference
holds the caller's original object with the `Times cited` note written into
it, so the caller's entries and any other aliases observe the annotation. -/
theorem claim10_dedup_mutates_shared_items (cs : List (Cite Nat)) (store : ItemStore)
    (hvalid : ∀ k ∈ List.range cs.length,
      ∀ r ∈ ((cs.getD k ⟨[], none⟩).itemData).toList, r < store.length)
    (hdistinct : ∀ k1 ∈ List.range cs.length, ∀ k2 ∈ List.range cs.length,
      ∀ r ∈ ((cs.getD k1 ⟨[], none⟩).itemData).toList,
        r ∈ ((cs.getD k2 ⟨[], none⟩).itemData).toList → k1 = k2) :
    ∀ o ∈ (deduplicateCitationsRef cs store).1, o.uris ≠ [] →
      ∃ k, k < cs.length ∧ (cs.getD k ⟨[], none⟩).itemData = some o.itemData ∧
        storeRead (deduplicateCitationsRef cs store).2 o.itemData
          = (storeRead store o.itemData).map
              fun it => addCiteCountToItem it o.count := by
  by_cases h0 : cs.length = 0
  · have hdc : deduplicateCitationsRef cs store = ([], store) := by
      unfold deduplicateCitationsRef
      rw [if_pos h0]
    intro o ho
    rw [hdc] at ho
    exact absurd ho (by simp)
  · set B := normalizeUris (mkDedupArray cs) with hB
    have hBn : B.length = cs.length := normBgen_len cs
    have hFields : ∀ k, k < B.length →
        (B.getD k default).count = 1 ∧ (B.getD k default).index = k
        ∧ (B.getD k default).indices = none
        ∧ (B.getD k default).item = (cs.getD k ⟨[], none⟩).itemData := by
      intro k hk
      rw [hB]
      exact normBgen_fields cs k (by omega)
    have HBidx : ∀ k, k < B.length → (B.getD k default).index = k
        ∧ (B.getD k default).indices = none :=
      fun k hk => ⟨(hFields k hk).2.1, (hFields k hk).2.2.1⟩
    have HBval : ∀ k r, k < B.length → (B.getD k default).item = some r →
        r < store.length := by
      intro k r hk hkr
      refine hvalid k (List.mem_range.mpr (by omega)) r ?_
      rw [← (hFields k hk).2.2.2, hkr]
      simp [Option.toList]
    have HBdis : ∀ k1 k2 r, k1 < B.length → k2 < B.length →
        (B.getD k1 default).item = some r → (B.getD k2 default).item = some r →
        k1 = k2 := by
      intro k1 k2 r hk1 hk2 h1 h2
      refine hdistinct k1 (List.mem_range.mpr (by omega))
        k2 (List.mem_range.mpr (by omega)) r ?_ ?_
      · rw [← (hFields k1 hk1).2.2.2, h1]
        simp [Option.toList]
      · rw [← (hFields k2 hk2).2.2.2, h2]
        simp [Option.toList]
    obtain ⟨J1, J2, J3, J4, J5, J6, J7⟩ :=
      dedupRefInv_fold B store HBidx HBval HBdis B.length (Nat.le_refl _)
    set σf := (List.range B.length).foldl dedupStepRef ((B, ([] : List Nat)), store)
      with hσf
    have hpdr : performDeduplicationRef B store
        = (σf.1.1.filter fun e => !σf.1.2.contains e.index, σf.2) := rfl
    have hdc : deduplicateCitationsRef cs store
        = (((performDeduplicationRef B store).1.filter
              (fun e => e.item.isSome)).filterMap
            (fun e => e.item.map fun ref =>
              { itemData := ref, uris := e.uris, count := e.count,
                indices := e.indices.getD [e.index] }),
           (performDeduplicationRef B store).2) := by
      unfold deduplicateCitationsRef
      rw [if_neg h0]
    intro o ho hone
    rw [hdc] at ho
    dsimp only at ho
    obtain ⟨e, he, hfo⟩ := List.mem_filterMap.mp ho
    obtain ⟨heP, hesome⟩ := List.mem_filter.mp he
    obtain ⟨ref, href⟩ := Option.isSome_iff_exists.mp hesome
    rw [href] at hfo
    simp only [Option.map_some'] at hfo
    have ho_eq : (⟨ref, e.uris, e.count, e.indices.getD [e.index]⟩
        : DedupRecordRef) = o := Option.some_inj.mp hfo
    rw [hpdr] at heP
    dsimp only at heP
    obtain ⟨heA, hend⟩ := List.mem_filter.mp heP
    obtain ⟨⟨j, hj⟩, hje⟩ := List.mem_iff_get.mp heA
    have hjB : j < B.length := by rw [← J1]; exact hj
    have he_getD : σf.1.1.getD j default = e := by
      rw [List.getD_eq_get?, List.get?_eq_get hj]
      rw [hje]
      rfl
    obtain ⟨hitem_e, hidx_e, huris_e⟩ := J2 j hjB
    rw [he_getD] at hitem_e hidx_e huris_e
    have hBitem : (B.getD j default).item = some ref := by
      rw [← hitem_e]
      exact href
    have hnd : j ∉ σf.1.2 := by
      rw [Bool.not_eq_true'] at hend
      rw [← Bool.not_eq_true, containsNat_true_iff] at hend
      rwa [hidx_e] at hend
    have hune : (σf.1.1.getD j default).uris ≠ [] := by
      rw [he_getD]
      intro hc
      refine hone ?_
      rw [← ho_eq]
      exact hc
    have hann := J7 j (by omega) hjB hune hnd
    have hstore := J5 j hjB hann ref hBitem
    rw [he_getD] at hstore
    refine ⟨j, by omega, ?_, ?_⟩
    · rw [← (hFields j hjB).2.2.2, ← ho_eq]
      exact hBitem
    · have h2 : (deduplicateCitationsRef cs store).2 = σf.2 := by
        rw [hdc, hpdr]
      rw [h2, ← ho_eq]
      exact hstore

/-- Witness for C10 at one entry whose record is the reference `0` into a
one-object store: the returned cluster exposes reference 0 and the store
cell 0 now carries the annotated object. -/
theorem claim10_witness :
    (∀ k ∈ List.range ([⟨["u"], some 0⟩] : List (Cite Nat)).length,
      ∀ r ∈ ((([⟨["u"], some 0⟩] : List (Cite Nat)).getD k ⟨[], none⟩).itemData).toList,
        r < (([{}] : List Item) : ItemStore).length) ∧
    (∀ k1 ∈ List.range ([⟨["u"], some 0⟩] : List (Cite Nat)).length,
      ∀ k2 ∈ List.range ([⟨["u"], some 0⟩] : List (Cite Nat)).length,
      ∀ r ∈ ((([⟨["u"], some 0⟩] : List (Cite Nat)).getD k1 ⟨[], none⟩).itemData).toList,
        r ∈ ((([⟨["u"], some 0⟩] : List (Cite Nat)).getD k2 ⟨[], none⟩).itemData).toList →
        k1 = k2) ∧
    (∀ o ∈ (deduplicateCitationsRef ([⟨["u"], some 0⟩] : List (Cite Nat))
        (([{}] : List Item) : ItemStore)).1, o.uris ≠ [] →
      ∃ k, k < ([⟨["u"], some 0⟩] : List (Cite Nat)).length ∧
        (([⟨["u"], some 0⟩] : List (Cite Nat)).getD k ⟨[], none⟩).itemData
          = some o.itemData ∧
        storeRead (deduplicateCitationsRef ([⟨["u"], some 0⟩] : List (Cite Nat))
            (([{}] : List Item) : ItemStore)).2 o.itemData
          = (storeRead (([{}] : List Item) : ItemStore) o.itemData).map
              fun it => addCiteCountToItem it o.count) :=
  ⟨by decide, by decide,
    claim10_dedup_mutates_shared_items _ _ (by decide) (by decide)⟩
